import Mathlib

/-!
Verification of the build-orchestrator core (mypy `build.py`).

This file gives a shallow embedding, in Lean 4, of the data model and the
algorithms of the build orchestrator: the strongly-connected-component
computation, the topological sort of the SCC DAG, the intra-SCC ordering
heuristic, the per-SCC freshness classification, the cache-metadata
validator, the stale-SCC pipeline, and the per-module dependency
bookkeeping.  Each definition mirrors the corresponding Python function;
external collaborators (the parser, the type checker, the file system)
appear as oracle parameters.  The theorems at the end of the file settle
the specification claims against this embedding.
-/

/- ### Generic association-list helpers (model of Python dicts) -/

/-- Lookup in an association list (first binding wins, like a Python dict
whose later duplicate insertions we never create). -/
def lookupKV {β : Type} : List (String × β) → String → Option β
  | [], _ => none
  | (a, b) :: t, k => if a = k then some b else lookupKV t k

/-- `d.get(k, dflt)` -/
def lookupD {β : Type} (l : List (String × β)) (k : String) (dflt : β) : β :=
  (lookupKV l k).getD dflt

/-- `d[k] = v` : overwrite in place if the key exists, else append. -/
def setKey {β : Type} (l : List (String × β)) (k : String) (v : β) :
    List (String × β) :=
  if (lookupKV l k).isSome then
    l.map (fun p => if p.1 = k then (k, v) else p)
  else l ++ [(k, v)]

/-- `del d[k]` -/
def delKey {β : Type} (l : List (String × β)) (k : String) : List (String × β) :=
  l.filter (fun p => p.1 ≠ k)

/-- Python dict equality: same keys, same values. -/
def dictEq {β : Type} [DecidableEq β] (a b : List (String × β)) : Bool :=
  a.all (fun p => lookupKV b p.1 = lookupKV a p.1) &&
    b.all (fun p => lookupKV a p.1 = lookupKV b p.1)

/-- Python set equality of two membership lists. -/
def listSetEq (a b : List String) : Bool :=
  a.all (fun x => x ∈ b) && b.all (fun x => x ∈ a)

/- ### Import priorities (`build.py`, `PRI_*` constants) -/

def PRI_HIGH : Nat := 5
def PRI_MED : Nat := 10
def PRI_LOW : Nat := 20
def PRI_MYPY : Nat := 25
def PRI_INDIRECT : Nat := 30
def PRI_ALL : Nat := 99

/- ### `State.compute_dependencies`

The parser front end is abstracted by the list of `(priority, id, line)`
triples that `manager.all_imported_modules_in_file(self.tree)` yields. -/

structure DepsResult where
  dependencies : List String
  priorities : List (String × Nat)
  dep_line_map : List (String × Nat)
  deriving Repr, DecidableEq

/-- The loop body of `compute_dependencies`: accumulate priorities, skip the
module itself, and record each remaining module on first sight. -/
def computeDepsLoop (selfId : String) :
    List (Nat × String × Nat) → List String → List (String × Nat) →
      List (String × Nat) → DepsResult
  | [], deps, prios, dlm => ⟨deps, prios, dlm⟩
  | (pri, id, line) :: rest, deps, prios, dlm =>
    let prios' := setKey prios id (min pri (lookupD prios id PRI_ALL))
    if id = selfId then
      computeDepsLoop selfId rest deps prios' dlm
    else if (lookupKV dlm id).isSome then
      computeDepsLoop selfId rest deps prios' dlm
    else
      computeDepsLoop selfId rest (deps ++ [id]) prios' (dlm ++ [(id, line)])

/-- `State.compute_dependencies` (build.py:1718-1752). -/
def compute_dependencies (selfId : String) (imports : List (Nat × String × Nat)) :
    DepsResult :=
  let r := computeDepsLoop selfId imports [] [] []
  if selfId ≠ "builtins" ∧ (lookupKV r.dep_line_map "builtins").isNone then
    { r with dependencies := r.dependencies ++ ["builtins"] }
  else r

/- ### Cache metadata (`CacheMeta`, `cache_meta_from_dict`)

Fields that `cache_meta_from_dict` fills with the `sentinel` (when the JSON
object lacks the key, or holds `null`) are modelled as `Option`s. -/

structure CacheMeta where
  id : Option String
  path : Option String
  mtime : Option Nat
  size : Option Nat
  hash : Option String
  dependencies : Option (List String)
  data_mtime : Option Nat
  deps_mtime : Option Nat
  data_json : String
  deps_json : Option String
  suppressed : List String
  child_modules : List String
  options : Option (List (String × String))
  dep_prios : List Nat
  dep_lines : List Nat
  interface_hash : String
  version_id : Option String
  ignore_all : Bool
  deriving Repr, DecidableEq

/-- Result of `os.stat` on a source path, as the validator consumes it. -/
structure StatRes where
  is_reg : Bool
  size : Nat
  mtime : Nat
  deriving Repr, DecidableEq

/-- The slice of the `BuildManager` (options, fingerprints, file-system view)
that `find_cache_meta` and `validate_meta` read.  File-system reads are
oracle functions; option values are string-encoded. -/
structure Manager where
  version_id : String
  skip_version_check : Bool
  quick_and_dirty : Bool
  cache_fine_grained : Bool
  use_fine_grained_cache : Bool
  bazel : Bool
  current_options : String → List (String × String)
  plugins_snapshot : List (String × String)
  old_plugins_snapshot : Option (List (String × String))
  getmtime : String → Nat
  get_stat : String → Option StatRes
  md5 : String → Option String
  normpath : String → String
  meta_file : String → String → String

/-- Truthiness of `manager.old_plugins_snapshot` (an `Optional[Dict]`). -/
def truthySnapshot (o : Option (List (String × String))) : Bool :=
  match o with
  | none => false
  | some l => ¬ l.isEmpty

/-- `find_cache_meta` (build.py:856-925).  The composite of
`_load_json_file` and `cache_meta_from_dict` is abstracted by the `loaded`
argument (`none` covers a missing, unreadable or non-dict meta file). -/
def find_cache_meta (id : String) (loaded : Option CacheMeta) (m : Manager) :
    Option CacheMeta :=
  match loaded with
  | none => none
  | some mt =>
    if mt.id ≠ some id ∨ mt.mtime = none ∨ mt.size = none ∨
        mt.dependencies = none ∨ mt.data_mtime = none ∨
        (m.cache_fine_grained ∧ mt.deps_mtime = none) then none
    else if (mt.version_id ≠ some m.version_id ∧ ¬ m.skip_version_check) ∨
        mt.options = none ∨
        (mt.dependencies.getD []).length + mt.suppressed.length ≠
          mt.dep_prios.length ∨
        (mt.dependencies.getD []).length + mt.suppressed.length ≠
          mt.dep_lines.length then none
    else
      let cached0 := mt.options.getD []
      let cached1 :=
        if m.quick_and_dirty then setKey cached0 "quick_and_dirty" "True"
        else cached0
      let cached2 :=
        if m.skip_version_check then
          setKey cached1 "platform" (lookupD (m.current_options id) "platform" "")
        else cached1
      let cached3 := delKey cached2 "debug_cache"
      if ¬ dictEq cached3 (m.current_options id) then none
      else if truthySnapshot m.old_plugins_snapshot ∧ ¬ m.plugins_snapshot.isEmpty ∧
          ¬ dictEq m.plugins_snapshot (m.old_plugins_snapshot.getD []) then none
      else some mt

/-- The metadata record `validate_meta` persists in its Replace branch
(the `meta_dict` literal of build.py:1015-1033). -/
structure MetaRecord where
  id : String
  path : String
  mtime : Nat
  size : Nat
  hash : String
  data_mtime : Nat
  deps_mtime : Option Nat
  dependencies : Option (List String)
  suppressed : List String
  child_modules : List String
  options : List (String × String)
  dep_prios : List Nat
  dep_lines : List Nat
  interface_hash : String
  version_id : String
  ignore_all : Bool
  deriving Repr, DecidableEq

/-- Result of `validate_meta`: the returned metadata (or `none` = Reject)
together with the metadata files written as a side effect. -/
structure VMResult where
  result : Option CacheMeta
  writes : List (String × MetaRecord)
  deriving Repr, DecidableEq

/-- `validate_meta` (build.py:928-1046). -/
def validate_meta (meta : Option CacheMeta) (id : String) (path : Option String)
    (ignore_all : Bool) (m : Manager) : VMResult :=
  match meta with
  | none => ⟨none, []⟩
  | some mt =>
    if mt.ignore_all ∧ ¬ ignore_all then ⟨none, []⟩
    else
      match path with
      | none => ⟨none, []⟩
      | some path0 =>
        let data_mtime := m.getmtime mt.data_json
        if some data_mtime ≠ mt.data_mtime then ⟨none, []⟩
        else
          let deps_mtime : Option Nat :=
            if m.cache_fine_grained then some (m.getmtime (mt.deps_json.getD ""))
            else none
          if m.cache_fine_grained ∧ deps_mtime ≠ mt.deps_mtime then ⟨none, []⟩
          else
            let path1 := m.normpath path0
            match m.get_stat path1 with
            | none => ⟨none, []⟩
            | some st =>
              if ¬ st.is_reg then ⟨none, []⟩
              else
                let fgc := m.use_fine_grained_cache
                if some st.size ≠ mt.size ∧ ¬ m.bazel ∧ ¬ fgc then ⟨none, []⟩
                else
                  let mtime := if m.bazel then 0 else st.mtime
                  if ¬ m.bazel ∧ (some mtime ≠ mt.mtime ∨ some path1 ≠ mt.path) then
                    match m.md5 path1 with
                    | none => ⟨none, []⟩
                    | some source_hash =>
                      if some source_hash ≠ mt.hash then
                        if fgc then ⟨some mt, []⟩ else ⟨none, []⟩
                      else
                        ⟨some { mt with mtime := some mtime, path := some path1 },
                         [(m.meta_file id path1,
                           { id := id, path := path1, mtime := mtime,
                             size := st.size, hash := source_hash,
                             data_mtime := data_mtime, deps_mtime := deps_mtime,
                             dependencies := mt.dependencies,
                             suppressed := mt.suppressed,
                             child_modules := mt.child_modules,
                             options := m.current_options id,
                             dep_prios := mt.dep_prios,
                             dep_lines := mt.dep_lines,
                             interface_hash := mt.interface_hash,
                             version_id := m.version_id,
                             ignore_all := mt.ignore_all })]⟩
                  else ⟨some mt, []⟩

/- ### Module state and graph -/

/-- The slice of `State` that the scheduler reads and mutates. -/
structure ModState where
  id : String
  path : String
  dependencies : List String
  suppressed : List String
  priorities : List (String × Nat)
  dep_line_map : List (String × Nat)
  order : Nat
  meta : Option CacheMeta
  externally_same : Bool
  child_modules : List String
  transitive_error : Bool
  ignore_all : Bool
  interface_hash : String
  deriving Repr, DecidableEq

/-- The module graph: the key set plus the state table.  `st` is total; it
is only consulted on keys (Python raises `KeyError` elsewhere). -/
structure BGraph where
  keys : List String
  st : String → ModState

/-- `State.dependency_priorities` (build.py:1931-1932). -/
def dependency_priorities (s : ModState) : List Nat :=
  (s.dependencies ++ s.suppressed).map (fun dep => lookupD s.priorities dep PRI_HIGH)

/-- `State.dependency_lines` (build.py:1934-1935). -/
def dependency_lines (s : ModState) : List Nat :=
  (s.dependencies ++ s.suppressed).map (fun dep => lookupD s.dep_line_map dep 1)

/-- `load_graph`'s recovery from `ModuleNotFound` (build.py:2374-2377):
move `dep` from `dependencies` to `suppressed`. -/
def moveToSuppressed (s : ModState) (dep : String) : ModState :=
  if dep ∈ s.dependencies then
    { s with dependencies := s.dependencies.erase dep,
             suppressed := s.suppressed ++ [dep] }
  else s

/-- `load_graph`'s promotion of a previously suppressed dependency that has
become visible (build.py:2384-2388). -/
def promoteSuppressed (s : ModState) (dep : String) : ModState :=
  if dep ∈ s.suppressed then
    { s with suppressed := s.suppressed.erase dep,
             dependencies := s.dependencies ++ [dep] }
  else s

/-- One step of `State._patch_indirect_dependencies` (build.py:1827-1834)
for a single indirect dependency `dep`.  `inModules` and `inMissing` are
the `dep in self.manager.modules` / `dep in self.manager.missing_modules`
tests. -/
def patchIndirectStep (s : ModState) (dep : String)
    (inModules inMissing : Bool) : ModState :=
  if ¬ inModules then s
  else if dep ∉ s.suppressed ∧ ¬ inMissing then
    { s with dependencies := s.dependencies ++ [dep],
             priorities := setKey s.priorities dep PRI_INDIRECT }
  else if dep ∉ s.suppressed ∧ inMissing then
    { s with suppressed := s.suppressed ++ [dep] }
  else s

/-- `State.is_fresh` (build.py:1534-1543). -/
def is_fresh (s : ModState) : Bool :=
  match s.meta with
  | none => false
  | some mt =>
    s.externally_same && (some s.dependencies = mt.dependencies : Bool) &&
      listSetEq s.child_modules mt.child_modules

/-- `State.is_interface_fresh` (build.py:1545-1546). -/
def is_interface_fresh (s : ModState) : Bool :=
  s.externally_same

/-- `State.xmeta.data_mtime` (meta is asserted non-`None` at the use site). -/
def xmetaDataMtime (s : ModState) : Nat :=
  ((s.meta.map (fun mt => mt.data_mtime)).join).getD 0

/- ### Per-SCC freshness classification (`process_graph`, build.py:2424-2472) -/

/-- `stale_scc = {id for id in scc if not graph[id].is_fresh()}` -/
def sccStale (g : BGraph) (scc : List String) : List String :=
  scc.filter (fun id => ¬ is_fresh (g.st id))

/-- `deps` of the SCC: union of member dependencies, minus the SCC. -/
def sccExtDeps (g : BGraph) (ascc scc : List String) : List String :=
  (scc.flatMap (fun id => (g.st id).dependencies)).filter (fun d => d ∉ ascc)

/-- `stale_deps = {id for id in deps if id in graph and not interface_fresh}` -/
def sccStaleDeps (g : BGraph) (ascc scc : List String) : List String :=
  (sccExtDeps g ascc scc).filter
    (fun d => d ∈ g.keys ∧ ¬ is_interface_fresh (g.st d))

/-- `undeps`: suppressed dependencies of SCC members that are graph keys. -/
def sccUndeps (g : BGraph) (scc : List String) : List String :=
  (scc.flatMap (fun id => (g.st id).suppressed)).filter (fun d => d ∈ g.keys)

/-- `oldest_in_scc = min(graph[id].xmeta.data_mtime for id in scc)` -/
def sccOldest (g : BGraph) (scc : List String) : Nat :=
  ((scc.map (fun id => xmetaDataMtime (g.st id))).min?).getD 0

/-- `newest_in_deps`: 0 without viable stale deps, else their max
data mtime. -/
def sccNewest (g : BGraph) (ascc scc : List String) : Nat :=
  let viable := (sccStaleDeps g ascc scc).filter (fun d => (g.st d).meta.isSome)
  if viable.isEmpty then 0
  else ((viable.map (fun d => xmetaDataMtime (g.st d))).max?).getD 0

/-- The freshness decision of `process_graph` for one SCC
(build.py:2424-2472).  `ascc` is the SCC as a set and `scc` its ordered
form; the code iterates both, with the same membership.  Returns `true`
when the SCC is queued as fresh. -/
def classifyScc (g : BGraph) (ascc scc : List String) (qd : Bool) : Bool :=
  let fresh0 := (sccStale g scc).isEmpty
  let stale_deps := sccStaleDeps g ascc scc
  let fresh1 := if ¬ qd then fresh0 && stale_deps.isEmpty else fresh0
  let undeps := if fresh1 then sccUndeps g scc else []
  let fresh2 := fresh1 && undeps.isEmpty
  if fresh2 then
    if qd ∧ ¬ stale_deps.isEmpty then true
    else if sccOldest g scc < sccNewest g ascc scc then false
    else true
  else false

/-- The freshness condition as the specification words it: every module of
the SCC is fresh, no external dependency in the graph has a stale
interface, no previously suppressed dependency is a key of the graph, and
the oldest data-artifact mtime in the SCC is at least the newest one among
the (possibly-stale) external dependencies. -/
def freshSpec (g : BGraph) (ascc scc : List String) : Prop :=
  (∀ id ∈ scc, is_fresh (g.st id)) ∧
  (∀ d, (∃ id ∈ scc, d ∈ (g.st id).dependencies) → d ∉ ascc → d ∈ g.keys →
    is_interface_fresh (g.st d)) ∧
  (∀ d, (∃ id ∈ scc, d ∈ (g.st id).suppressed) → d ∉ g.keys) ∧
  sccNewest g ascc scc ≤ sccOldest g scc

/- ### `State.write_cache` (build.py:1860-1890) -/

/-- What `State.write_cache` did to the file system. -/
inductive CacheAction where
  /-- returned without touching cache files -/
  | noop : CacheAction
  /-- `delete_cache` removed the module's cache files -/
  | deleted : CacheAction
  /-- the module-level `write_cache` wrote fresh cache files -/
  | wrote : CacheAction
  deriving Repr, DecidableEq

/-- Build options consulted by `State.write_cache`. -/
structure WriteOpts where
  cache_disabled : Bool
  fine_grained_incremental : Bool
  quick_and_dirty : Bool
  deriving Repr, DecidableEq

/-- `State.write_cache`.  `isErrorsForFile` stands for
`manager.errors.is_errors_for_file(self.path)`; the module-level
`write_cache` call is abstracted by the `new_interface_hash` / `new_meta`
oracle values it would return.  Yields the updated state and the
file-system action taken. -/
def state_write_cache (s : ModState) (o : WriteOpts) (isErrorsForFile : Bool)
    (new_interface_hash : String) (new_meta : Option CacheMeta) :
    ModState × CacheAction :=
  if s.path = "" ∨ o.cache_disabled ∨ o.fine_grained_incremental then
    (s, CacheAction.noop)
  else
    let is_errors := if o.quick_and_dirty then isErrorsForFile else s.transitive_error
    if is_errors then
      ({ s with meta := none, externally_same := false }, CacheAction.deleted)
    else
      if new_interface_hash = s.interface_hash then
        ({ s with meta := new_meta }, CacheAction.wrote)
      else
        ({ s with meta := new_meta, externally_same := false,
                  interface_hash := new_interface_hash }, CacheAction.wrote)

/- ### The stale pipeline (`process_stale_scc`, build.py:2603-2660) -/

/-- The pipeline phases, in source order.  The type-check second pass
carries its fixpoint round number. -/
inductive Phase where
  | loadTree : Phase
  | parseFile : Phase
  | fixSuppressed : Phase
  | addAliases : Phase
  | fixCrossRefs : Phase
  | semAnal : Phase
  | semAnalPass3 : Phase
  | applyPatches : Phase
  | typeCheckFirst : Phase
  | typeCheckSecond : Nat → Phase
  | unusedIgnores : Phase
  | finishPasses : Phase
  deriving Repr, DecidableEq

/-- An execution event: a phase applied to a module id. -/
abbrev Event := Phase × String

/-- The type-check-second-pass fixpoint loop (build.py:2643-2648).
`secondPass r id` is the oracle for what `graph[id].type_check_second_pass()`
returns in round `r`.  Returns the emitted events and whether the loop
reached quiescence within `fuel` rounds. -/
def tcSecondRounds (stale : List String) (secondPass : Nat → String → Bool) :
    Nat → Nat → List Event × Bool
  | 0, _ => ([], false)
  | fuel + 1, r =>
    let block : List Event := stale.map (fun id => (Phase.typeCheckSecond r, id))
    let more := stale.any (fun id => secondPass r id)
    if more then
      let rest := tcSecondRounds stale secondPass fuel (r + 1)
      (block ++ rest.1, rest.2)
    else (block, true)

/-- `process_stale_scc` as a trace generator.  `isFreshOracle` stands for
`graph[id].is_fresh()` (consulted only in quick-and-dirty mode), and
`secondPass` for the type checker's second-pass verdicts.  The per-node
pass bodies are external collaborators; the trace records the order in
which they are invoked. -/
def process_stale_scc (scc : List String) (qd : Bool)
    (isFreshOracle : String → Bool) (secondPass : Nat → String → Bool)
    (fuel : Nat) : List Event × Bool :=
  let fresh := if qd then scc.filter (fun id => isFreshOracle id) else []
  let stale := if qd then scc.filter (fun id => ¬ isFreshOracle id) else scc
  let tc := tcSecondRounds stale secondPass fuel 0
  (fresh.map (fun id => (Phase.loadTree, id)) ++
   stale.flatMap (fun id => [(Phase.parseFile, id), (Phase.fixSuppressed, id)]) ++
   (if "typing" ∈ scc then [(Phase.addAliases, "typing")] else []) ++
   fresh.map (fun id => (Phase.fixCrossRefs, id)) ++
   stale.map (fun id => (Phase.semAnal, id)) ++
   stale.map (fun id => (Phase.semAnalPass3, id)) ++
   stale.map (fun id => (Phase.applyPatches, id)) ++
   stale.map (fun id => (Phase.typeCheckFirst, id)) ++
   tc.1 ++
   stale.map (fun id => (Phase.unusedIgnores, id)) ++
   stale.map (fun id => (Phase.finishPasses, id)), tc.2)

/-- The stale node list of `process_stale_scc` (build.py:2608-2618): the
whole SCC, except in quick-and-dirty mode where fresh nodes are loaded from
cache instead. -/
def staleOf (scc : List String) (qd : Bool) (isFreshOracle : String → Bool) :
    List String :=
  if qd then scc.filter (fun id => ¬ isFreshOracle id) else scc

/-- Rank of an event in the pipeline's phase order; type-check-second
rounds are ordered by round number between `typeCheckFirst` and
`unusedIgnores`.  Ranks are lexicographic pairs. -/
def phaseRank (e : Event) : Nat × Nat :=
  match e.1 with
  | Phase.loadTree => (0, 0)
  | Phase.parseFile => (1, 0)
  | Phase.fixSuppressed => (1, 0)
  | Phase.addAliases => (2, 0)
  | Phase.fixCrossRefs => (3, 0)
  | Phase.semAnal => (4, 0)
  | Phase.semAnalPass3 => (5, 0)
  | Phase.applyPatches => (6, 0)
  | Phase.typeCheckFirst => (7, 0)
  | Phase.typeCheckSecond r => (8, r)
  | Phase.unusedIgnores => (9, 0)
  | Phase.finishPasses => (10, 0)

/-- Lexicographic order on ranks. -/
def rankLe (a b : Nat × Nat) : Prop :=
  a.1 < b.1 ∨ (a.1 = b.1 ∧ a.2 ≤ b.2)

/- ### Strongly connected components (build.py:2712-2758)

The path-based algorithm, with the generator flattened into an explicit
result list.  `index`, `stack`, `boundaries` and `identified` mirror the
Python locals; `boundaries` is stored top-first (Python appends and pops at
the right end). -/

structure SccSt where
  identified : List String
  stack : List String
  index : List (String × Nat)
  boundaries : List Nat
  deriving Repr, DecidableEq

/-- `while index[w] < boundaries[-1]: boundaries.pop()` -/
def popBoundaries (iw : Nat) : List Nat → List Nat
  | [] => []
  | b :: bs => if iw < b then popBoundaries iw bs else b :: bs

mutual
/-- The body of `dfs(v)`: mark `v`, push it, push its boundary, process its
edges, and emit the component when `v`'s boundary survived.  `none` means
the fuel ran out (never happens with fuel above the unvisited count). -/
def dfsVisit (edges : String → List String) :
    Nat → SccSt → String → Option (SccSt × List (List String))
  | 0, _, _ => none
  | fuel + 1, st, v =>
    let iv := st.stack.length
    let st1 : SccSt :=
      { st with index := (v, iv) :: st.index, stack := st.stack ++ [v],
                boundaries := iv :: st.boundaries }
    match dfsEdges edges fuel st1 v (edges v) with
    | none => none
    | some (st2, cs) =>
      if st2.boundaries.head? = some iv then
        let scc := st2.stack.drop iv
        some ({ st2 with boundaries := st2.boundaries.tail,
                         stack := st2.stack.take iv,
                         identified := scc ++ st2.identified }, cs ++ [scc])
      else some (st2, cs)
termination_by fuel st v => (fuel, 0)

/-- The edge loop of `dfs(v)`. -/
def dfsEdges (edges : String → List String) :
    Nat → SccSt → String → List String → Option (SccSt × List (List String))
  | _, st, _, [] => some (st, [])
  | fuel, st, v, w :: ws =>
    if (lookupKV st.index w).isNone then
      match dfsVisit edges fuel st w with
      | none => none
      | some (st', cs) =>
        match dfsEdges edges fuel st' v ws with
        | none => none
        | some (st'', cs') => some (st'', cs ++ cs')
    else if w ∉ st.identified then
      dfsEdges edges fuel
        { st with boundaries := popBoundaries ((lookupKV st.index w).getD 0) st.boundaries }
        v ws
    else
      dfsEdges edges fuel st v ws
termination_by fuel st v ws => (fuel, ws.length + 1)
end

/-- The top-level loop of `strongly_connected_components`. -/
def sccTop (edges : String → List String) (fuel : Nat) :
    SccSt → List String → Option (SccSt × List (List String))
  | st, [] => some (st, [])
  | st, v :: vs =>
    if (lookupKV st.index v).isNone then
      match dfsVisit edges fuel st v with
      | none => none
      | some (st', cs) =>
        match sccTop edges fuel st' vs with
        | none => none
        | some (st'', cs') => some (st'', cs ++ cs')
    else sccTop edges fuel st vs

/-- `strongly_connected_components(vertices, edges)`.  Components are
emitted as the stack slices the algorithm deletes; `none` is the
(provably unreachable) fuel-exhaustion case. -/
def strongly_connected_components (vertices : List String)
    (edges : String → List String) : Option (List (List String)) :=
  match sccTop edges (vertices.length + 1) ⟨[], [], [], []⟩ vertices with
  | none => none
  | some (_, cs) => some cs

/- ### Edge relation, reachability, cycles -/

/-- One edge of the input graph. -/
def Step (edges : String → List String) (x y : String) : Prop :=
  y ∈ edges x

/-- Reachability (zero or more edges). -/
def Reach (edges : String → List String) : String → String → Prop :=
  Relation.ReflTransGen (Step edges)

/-- `v` lies on a cycle: some nonempty edge path leads from `v` back to
itself. -/
def OnCycle (edges : String → List String) (v : String) : Prop :=
  ∃ w, Step edges v w ∧ Reach edges w v

/- ### Dependency filter and topological sort (build.py:2663-2808) -/

/-- `deps_filtered(graph, vertices, id, pri_max)` (build.py:2702-2709). -/
def deps_filtered (g : BGraph) (vertices : List String) (id : String)
    (pri_max : Nat) : List String :=
  if id ∉ vertices then []
  else (g.st id).dependencies.filter
    (fun dep => decide (dep ∈ vertices) &&
      decide (lookupD (g.st id).priorities dep PRI_HIGH < pri_max))

/-- An SCC viewed as a node of the condensation (Python: a frozenset). -/
abbrev Comp := List String

/-- The normalization step of `topsort` (build.py:2795-2798): discard
self-dependencies and add an empty entry for each orphan dependency. -/
def topsortNormalize (data : List (Comp × List Comp)) : List (Comp × List Comp) :=
  let data1 := data.map (fun kv => (kv.1, kv.2.filter (fun c => c ≠ kv.1)))
  let orphans := ((data1.flatMap (fun kv => kv.2)).filter
    (fun c => decide (∀ kv ∈ data1, kv.1 ≠ c))).dedup
  data1 ++ orphans.map (fun c => (c, ([] : List Comp)))

/-- The emission loop of `topsort` (build.py:2799-2806): repeatedly emit
the set of entries with no remaining dependencies. -/
def topsortRounds : Nat → List (Comp × List Comp) → List (List Comp)
  | 0, _ => []
  | fuel + 1, data =>
    let ready := (data.filter (fun kv => kv.2.isEmpty)).map (fun kv => kv.1)
    if ready.isEmpty then []
    else
      ready :: topsortRounds fuel
        ((data.filter (fun kv => decide (kv.1 ∉ ready))).map
          (fun kv => (kv.1, kv.2.filter (fun c => decide (c ∉ ready)))))

/-- `topsort(data)` (build.py:2761-2808). -/
def topsort (data : List (Comp × List Comp)) : List (List Comp) :=
  let nd := topsortNormalize data
  topsortRounds (nd.length + 1) nd

/-- `min(graph[id].order for id in scc)` -/
def minOrder (g : BGraph) (c : Comp) : Nat :=
  ((c.map (fun id => (g.st id).order)).min?).getD 0

/-- `sorted_components(graph, vertices, pri_max)` (build.py:2663-2699). -/
def sorted_components (g : BGraph) (vertices : List String) (pri_max : Nat) :
    Option (List Comp) :=
  match strongly_connected_components vertices
      (fun id => deps_filtered g vertices id pri_max) with
  | none => none
  | some sccs =>
    let sccsmap := fun x => ((sccs.find? (fun c => decide (x ∈ c))).getD [])
    let data := sccs.map (fun scc =>
      (scc, ((scc.flatMap (fun id => deps_filtered g vertices id pri_max)).map
        sccsmap).dedup))
    some ((topsort data).flatMap (fun ready =>
      ready.mergeSort (fun c1 c2 => minOrder g c2 ≤ minOrder g c1)))

/- ### Intra-SCC ordering (`order_ascc`, build.py:2542-2586) -/

/-- The set (deduplicated list) of priorities observed on intra-SCC edges
below the cap. -/
def priSpread (g : BGraph) (ascc : List String) (pri_max : Nat) : List Nat :=
  ((ascc.flatMap (fun id =>
    ((g.st id).dependencies.filter (fun dep => decide (dep ∈ ascc))).filterMap
      (fun dep =>
        let pri := lookupD (g.st id).priorities dep PRI_HIGH
        if pri < pri_max then some pri else none))).dedup)

mutual
/-- `order_ascc(graph, ascc, pri_max)`.  `none` covers the case Python
would crash on (an SCC of several nodes with no internal edge below the
cap, where `max(pri_spread)` raises), which cannot arise for genuine
SCCs. -/
def order_ascc (g : BGraph) (ascc : List String) (pri_max : Nat) :
    Option (List String) :=
  if ascc.length = 1 then some ascc
  else
    let spread := priSpread g ascc pri_max
    if spread.length = 1 then
      some (ascc.mergeSort (fun a b => (g.st b).order ≤ (g.st a).order))
    else
      match h : spread.max? with
      | none => none
      | some m =>
        if hm : m < pri_max then
          match sorted_components g ascc m with
          | none => none
          | some sccs => orderAsccList g sccs m
        else none
termination_by (pri_max, 0)

/-- `[s for ss in sccs for s in order_ascc(graph, ss, pri_max)]` -/
def orderAsccList (g : BGraph) (cs : List Comp) (pri_max : Nat) :
    Option (List String) :=
  match cs with
  | [] => some []
  | c :: rest =>
    match order_ascc g c pri_max with
    | none => none
    | some l =>
      match orderAsccList g rest pri_max with
      | none => none
      | some ls => some (l ++ ls)
termination_by (pri_max, cs.length + 1)
end

/-- Number of vertices of `V` not yet indexed: the DFS fuel budget. -/
def freshCount (V : List String) (st : SccSt) : Nat :=
  (V.filter (fun x => (lookupKV st.index x).isNone)).length

/-- The invariant of the path-based SCC algorithm.  `stack` holds the
visited-but-unassigned vertices in discovery order, `index` their discovery
positions, `boundaries` (top-first) the open component boundaries, and
`identified` the vertices already emitted.  The two reachability fields
state that the stack is an ascending chain of reachability and that each
boundary-delimited segment is strongly connected. -/
structure SccInv (edges : String → List String) (V : List String)
    (st : SccSt) : Prop where
  nodup : st.stack.Nodup
  pos : ∀ i : Fin st.stack.length, lookupKV st.index (st.stack.get i) = some i.val
  idDom : ∀ w ∈ st.identified, (lookupKV st.index w).isSome
  domCover : ∀ w, (lookupKV st.index w).isSome → w ∈ st.identified ∨ w ∈ st.stack
  stackNotId : ∀ w ∈ st.stack, w ∉ st.identified
  bSorted : st.boundaries.Pairwise (fun a b => b < a)
  bLt : ∀ b ∈ st.boundaries, b < st.stack.length
  bEmpty : st.boundaries = [] → st.stack = []
  bZero : st.boundaries ≠ [] → 0 ∈ st.boundaries
  domV : ∀ w, (lookupKV st.index w).isSome → w ∈ V
  reachUp : ∀ i j : Fin st.stack.length, i.val ≤ j.val →
    Reach edges (st.stack.get i) (st.stack.get j)
  reachSeg : ∀ i j : Fin st.stack.length, i.val ≤ j.val →
    (∀ b ∈ st.boundaries, ¬ (i.val < b ∧ b ≤ j.val)) →
    Reach edges (st.stack.get j) (st.stack.get i)

/-- Specification of `dfsVisit`: on a fresh vertex reachable from the
whole stack, with enough fuel, it succeeds, preserves the invariant and
existing index entries, indexes `v` at the old stack top, grows
`identified` by exactly the emitted components, leaves the old stack as a
prefix, either restores the boundaries exactly (emitting `v`) or pops to a
nonempty suffix (leaving `v` on the stack), and emits nonempty,
duplicate-free, strongly connected, pairwise disjoint components of new
vertices. -/
def VisitSpec (edges : String → List String) (V : List String)
    (fuel : Nat) : Prop :=
  ∀ st v, SccInv edges V st → lookupKV st.index v = none → v ∈ V →
    (∀ x ∈ st.stack, Reach edges x v) →
    freshCount V st < fuel →
    ∃ st' cs, dfsVisit edges fuel st v = some (st', cs) ∧
      SccInv edges V st' ∧
      (∀ x, (lookupKV st.index x).isSome →
        lookupKV st'.index x = lookupKV st.index x) ∧
      lookupKV st'.index v = some st.stack.length ∧
      (∀ x, x ∈ st'.identified ↔ x ∈ st.identified ∨ ∃ c ∈ cs, x ∈ c) ∧
      (∃ ext, st'.stack = st.stack ++ ext) ∧
      ((st'.boundaries = st.boundaries ∧ st'.stack = st.stack ∧
          v ∈ st'.identified) ∨
        (∃ k, st'.boundaries = st.boundaries.drop k ∧ st'.boundaries ≠ [] ∧
          v ∈ st'.stack ∧ v ∉ st'.identified)) ∧
      (∀ c ∈ cs, c ≠ [] ∧ c.Nodup ∧
        (∀ x ∈ c, x ∉ st.identified ∧ x ∉ st.stack) ∧
        (∀ x ∈ c, ∀ y ∈ c, Reach edges x y)) ∧
      cs.Pairwise (fun c d => ∀ x ∈ c, x ∉ d) ∧
      freshCount V st' < freshCount V st

/-- Specification of `dfsEdges`, the edge loop of `dfs(v)`: like
`VisitSpec`, but the boundaries end in a nonempty suffix of the entry
boundaries whose head stays at or below `v`'s position, and the fresh
count does not increase. -/
def EdgesSpec (edges : String → List String) (V : List String)
    (fuel : Nat) : Prop :=
  ∀ ws st v iv, SccInv edges V st → v ∈ st.stack →
    lookupKV st.index v = some iv →
    (∃ b bs, st.boundaries = b :: bs ∧ b ≤ iv) →
    (∀ w ∈ ws, w ∈ edges v) → v ∈ V →
    freshCount V st < fuel →
    ∃ st'' cs, dfsEdges edges fuel st v ws = some (st'', cs) ∧
      SccInv edges V st'' ∧
      (∀ x, (lookupKV st.index x).isSome →
        lookupKV st''.index x = lookupKV st.index x) ∧
      (∀ x, x ∈ st''.identified ↔ x ∈ st.identified ∨ ∃ c ∈ cs, x ∈ c) ∧
      (∃ ext, st''.stack = st.stack ++ ext) ∧
      (∃ k b2 bs2, st''.boundaries = st.boundaries.drop k ∧
        st''.boundaries = b2 :: bs2 ∧ b2 ≤ iv) ∧
      (∀ c ∈ cs, c ≠ [] ∧ c.Nodup ∧
        (∀ x ∈ c, x ∉ st.identified ∧ x ∉ st.stack) ∧
        (∀ x ∈ c, ∀ y ∈ c, Reach edges x y)) ∧
      cs.Pairwise (fun c d => ∀ x ∈ c, x ∉ d) ∧
      freshCount V st'' ≤ freshCount V st

/- ### Concrete instances used by witnesses and counterexamples -/

/-- A module state with every scheduler-relevant field defaulted. -/
def mkState (id : String) (deps : List String) (ord : Nat) : ModState :=
  { id := id, path := "x.py", dependencies := deps, suppressed := [],
    priorities := [], dep_line_map := [], order := ord, meta := none,
    externally_same := true, child_modules := [], transitive_error := false,
    ignore_all := false, interface_hash := "" }

/-- A metadata record whose dependency arrays are out of line (2 recorded
modules but only one priority). -/
def metaBadLen : CacheMeta :=
  { id := some "a", path := some "a.py", mtime := some 3, size := some 7,
    hash := some "h", dependencies := some ["b"], data_mtime := some 5,
    deps_mtime := none, data_json := "a.data.json", deps_json := none,
    suppressed := ["c"], child_modules := [], options := some [],
    dep_prios := [10], dep_lines := [1, 1], interface_hash := "i",
    version_id := some "v", ignore_all := false }

/-- A manager with a consistent file-system view for `metaOk` below. -/
def mgr0 : Manager :=
  { version_id := "v", skip_version_check := false, quick_and_dirty := false,
    cache_fine_grained := false, use_fine_grained_cache := false,
    bazel := false, current_options := fun _ => [],
    plugins_snapshot := [], old_plugins_snapshot := none,
    getmtime := fun f => if f = "a.data.json" then 5 else 0,
    get_stat := fun p => if p = "a.py" then some ⟨true, 7, 9⟩ else none,
    md5 := fun p => if p = "a.py" then some "h" else none,
    normpath := fun p => p, meta_file := fun _ _ => "a.meta.json" }

/-- A well-formed metadata record matching `mgr0`'s file system except that
the recorded mtime (3) differs from the source file's (9). -/
def metaOk : CacheMeta :=
  { id := some "a", path := some "a.py", mtime := some 3, size := some 7,
    hash := some "h", dependencies := some ["b"], data_mtime := some 5,
    deps_mtime := none, data_json := "a.data.json", deps_json := none,
    suppressed := [], child_modules := [], options := some [],
    dep_prios := [10], dep_lines := [1], interface_hash := "i",
    version_id := some "v", ignore_all := false }

/-- `mgr0` after a plugin was added: the previous build recorded an empty
plugin snapshot, the current build has one plugin.  The snapshots differ. -/
def mgrPlugins : Manager :=
  { mgr0 with plugins_snapshot := [("plug", "1.0:abcd")],
              old_plugins_snapshot := some [] }

/-- Metadata for module `a` whose recorded dependency list is `["d"]`. -/
def metaDepD : CacheMeta :=
  { metaOk with dependencies := some ["d"] }

/-- A graph for the quick-and-dirty counterexample: `a` is fresh and
depends on `d`, whose interface is stale. -/
def gQd : BGraph :=
  { keys := ["a", "d"],
    st := fun id =>
      if id = "a" then
        { mkState "a" ["d"] 1 with meta := some metaDepD }
      else
        { mkState "d" [] 2 with externally_same := false, meta := some metaOk } }

/-- A manager whose previous and current plugin snapshots are both
nonempty and differ. -/
def mgrPluginsBoth : Manager :=
  { mgr0 with plugins_snapshot := [("plug", "2.0:ef")],
              old_plugins_snapshot := some [("plug", "1.0:abcd")] }

/-- A two-module import cycle with mixed priorities: `a` imports `b` at
top level (priority 10), `b` imports `a` inside a function (priority 20). -/
def gMix : BGraph :=
  { keys := ["a", "b"],
    st := fun id =>
      if id = "a" then { mkState "a" ["b"] 1 with priorities := [("b", 10)] }
      else { mkState "b" ["a"] 2 with priorities := [("a", 20)] } }

/-- The set of entries emitted by one round of the `topsort` loop. -/
def tsReady (data : List (Comp × List Comp)) : List Comp :=
  (data.filter (fun kv => kv.2.isEmpty)).map (fun kv => kv.1)

/-- The data remaining for the next round of the `topsort` loop. -/
def tsNext (data : List (Comp × List Comp)) : List (Comp × List Comp) :=
  (data.filter (fun kv => decide (kv.1 ∉ tsReady data))).map
    (fun kv => (kv.1, kv.2.filter (fun c => decide (c ∉ tsReady data))))

/-- The map from a vertex to its SCC used inside `sorted_components`. -/
def sccsMapFn (sccs : List Comp) : String → Comp :=
  fun x => ((sccs.find? (fun c => decide (x ∈ c))).getD [])

/-- The condensation data `sorted_components` hands to `topsort`. -/
def sccData (g : BGraph) (vertices : List String) (pri_max : Nat)
    (sccs : List Comp) : List (Comp × List Comp) :=
  sccs.map (fun scc =>
    (scc, ((scc.flatMap (fun id => deps_filtered g vertices id pri_max)).map
      (sccsMapFn sccs)).dedup))

/-- A three-vertex graph with the cycle `a ↔ b` and an acyclic vertex
`c` reachable from `b`. -/
def eSCC : String → List String := fun v =>
  if v = "a" then ["b"] else if v = "b" then ["a", "c"] else []

/- ### Theorems -/

/- #### Helper lemmas on association lists -/

theorem lookupKV_append {β : Type} (l1 l2 : List (String × β)) (k : String) :
    lookupKV (l1 ++ l2) k =
      match lookupKV l1 k with
      | some v => some v
      | none => lookupKV l2 k := by
  induction l1 with
  | nil => simp [lookupKV]
  | cons p t ih =>
    obtain ⟨a, b⟩ := p
    by_cases h : a = k <;> simp [lookupKV, h, ih]

/- #### C10: implicit builtins dependency, no self-dependency -/

theorem computeDepsLoop_inv (selfId : String) (imports : List (Nat × String × Nat)) :
    ∀ deps prios dlm,
      (∀ k, (lookupKV dlm k).isSome → k ∈ deps) → selfId ∉ deps →
      (∀ k, (lookupKV (computeDepsLoop selfId imports deps prios dlm).dep_line_map k).isSome →
        k ∈ (computeDepsLoop selfId imports deps prios dlm).dependencies) ∧
      selfId ∉ (computeDepsLoop selfId imports deps prios dlm).dependencies := by
  induction imports with
  | nil => intro deps prios dlm h1 h2; exact ⟨h1, h2⟩
  | cons triple rest ih =>
    intro deps prios dlm h1 h2
    obtain ⟨pri, id, line⟩ := triple
    by_cases hs : id = selfId
    · simpa [computeDepsLoop, hs] using ih deps _ dlm h1 h2
    · by_cases hd : (lookupKV dlm id).isSome
      · simpa [computeDepsLoop, hs, hd] using ih deps _ dlm h1 h2
      · have h1' : ∀ k, (lookupKV (dlm ++ [(id, line)]) k).isSome → k ∈ deps ++ [id] := by
          intro k hk
          rw [lookupKV_append] at hk
          rcases hlk : lookupKV dlm k with _ | v
          · rw [hlk] at hk
            simp only [lookupKV] at hk
            by_cases hik : id = k
            · simp [hik]
            · simp [hik] at hk
          · have := h1 k (by rw [hlk]; rfl)
            simp [this]
        have h2' : selfId ∉ deps ++ [id] := by
          simp only [List.mem_append, List.mem_singleton]
          rintro (h | h)
          · exact h2 h
          · exact hs h.symm
        simpa [computeDepsLoop, hs, hd] using ih (deps ++ [id]) _ (dlm ++ [(id, line)]) h1' h2'

/-- C10: after `compute_dependencies` for a module other than `builtins`,
`builtins` is in the dependency list even without an explicit import, and
the module's own id never is, even if the source imports itself. -/
theorem compute_dependencies_builtins_no_self (selfId : String)
    (imports : List (Nat × String × Nat)) (h : selfId ≠ "builtins") :
    "builtins" ∈ (compute_dependencies selfId imports).dependencies ∧
      selfId ∉ (compute_dependencies selfId imports).dependencies := by
  have hinv := computeDepsLoop_inv selfId imports [] [] []
    (by intro k hk; simp [lookupKV] at hk) (by simp)
  unfold compute_dependencies
  cases hx : lookupKV (computeDepsLoop selfId imports [] [] []).dep_line_map "builtins" with
  | none =>
    rw [if_pos ⟨h, by simp [hx]⟩]
    refine ⟨by simp, ?_⟩
    simp only [List.mem_append, List.mem_singleton]
    rintro (hc | hc)
    · exact hinv.2 hc
    · exact h hc
  | some v =>
    rw [if_neg (by simp [hx])]
    exact ⟨hinv.1 _ (by simp [hx]), hinv.2⟩

/-- Witness for C10 at a concrete input. -/
theorem compute_dependencies_builtins_no_self_witness :
    "a" ≠ "builtins" ∧
      ("builtins" ∈ (compute_dependencies "a" [(10, "a", 1), (5, "b", 2)]).dependencies ∧
        "a" ∉ (compute_dependencies "a" [(10, "a", 1), (5, "b", 2)]).dependencies) :=
  ⟨by decide, compute_dependencies_builtins_no_self "a" [(10, "a", 1), (5, "b", 2)] (by decide)⟩

/- #### C9: dependency-array alignment invariant -/

/-- C9: the priority and line arrays produced for the cache are parallel to
`dependencies + suppressed` (in particular the length equality holds for
every state, hence at every point of every mutation), the two graph-loading
mutations preserve the combined count, the indirect-dependency patch yields
a state that again satisfies the equality, and `find_cache_meta` rejects a
metadata record whose recorded arrays violate it. -/
theorem dep_arrays_invariant (s : ModState) (dep id : String) (mt : CacheMeta)
    (m : Manager) (inModules inMissing : Bool) (ds : List String)
    (hds : mt.dependencies = some ds)
    (hlen : ds.length + mt.suppressed.length ≠ mt.dep_prios.length) :
    (dependency_priorities s).length = s.dependencies.length + s.suppressed.length ∧
    (dependency_lines s).length = s.dependencies.length + s.suppressed.length ∧
    dependency_priorities s =
      (s.dependencies ++ s.suppressed).map (fun d => lookupD s.priorities d PRI_HIGH) ∧
    dependency_lines s =
      (s.dependencies ++ s.suppressed).map (fun d => lookupD s.dep_line_map d 1) ∧
    (moveToSuppressed s dep).dependencies.length +
        (moveToSuppressed s dep).suppressed.length =
      s.dependencies.length + s.suppressed.length ∧
    (promoteSuppressed s dep).dependencies.length +
        (promoteSuppressed s dep).suppressed.length =
      s.dependencies.length + s.suppressed.length ∧
    (dependency_priorities (patchIndirectStep s dep inModules inMissing)).length =
      (patchIndirectStep s dep inModules inMissing).dependencies.length +
        (patchIndirectStep s dep inModules inMissing).suppressed.length ∧
    find_cache_meta id (some mt) m = none := by
  refine ⟨by simp [dependency_priorities], by simp [dependency_lines], rfl, rfl,
    ?_, ?_, by simp [dependency_priorities], ?_⟩
  · unfold moveToSuppressed
    by_cases h : dep ∈ s.dependencies
    · have hpos : 0 < s.dependencies.length := List.length_pos.mpr (List.ne_nil_of_mem h)
      simp only [h, if_pos, List.length_erase_of_mem h, List.length_append,
        List.length_singleton]
      omega
    · simp [h]
  · unfold promoteSuppressed
    by_cases h : dep ∈ s.suppressed
    · have hpos : 0 < s.suppressed.length := List.length_pos.mpr (List.ne_nil_of_mem h)
      simp only [h, if_pos, List.length_erase_of_mem h, List.length_append,
        List.length_singleton]
      omega
    · simp [h]
  · show find_cache_meta id (some mt) m = none
    simp only [find_cache_meta]
    by_cases h1 : (mt.id ≠ some id ∨ mt.mtime = none ∨ mt.size = none ∨
        mt.dependencies = none ∨ mt.data_mtime = none ∨
        (m.cache_fine_grained = true ∧ mt.deps_mtime = none))
    · rw [if_pos h1]
    · rw [if_neg h1, if_pos]
      exact Or.inr (Or.inr (Or.inl (by rw [hds]; simpa using hlen)))

/-- Witness for C9 at concrete inputs. -/
theorem dep_arrays_invariant_witness :
    (metaBadLen.dependencies = some ["b"] ∧
      (["b"] : List String).length + metaBadLen.suppressed.length ≠
        metaBadLen.dep_prios.length) ∧
    ((dependency_priorities (mkState "a" ["b"] 1)).length =
        (mkState "a" ["b"] 1).dependencies.length +
          (mkState "a" ["b"] 1).suppressed.length ∧
      (dependency_lines (mkState "a" ["b"] 1)).length =
        (mkState "a" ["b"] 1).dependencies.length +
          (mkState "a" ["b"] 1).suppressed.length ∧
      dependency_priorities (mkState "a" ["b"] 1) =
        ((mkState "a" ["b"] 1).dependencies ++ (mkState "a" ["b"] 1).suppressed).map
          (fun d => lookupD (mkState "a" ["b"] 1).priorities d PRI_HIGH) ∧
      dependency_lines (mkState "a" ["b"] 1) =
        ((mkState "a" ["b"] 1).dependencies ++ (mkState "a" ["b"] 1).suppressed).map
          (fun d => lookupD (mkState "a" ["b"] 1).dep_line_map d 1) ∧
      (moveToSuppressed (mkState "a" ["b"] 1) "b").dependencies.length +
          (moveToSuppressed (mkState "a" ["b"] 1) "b").suppressed.length =
        (mkState "a" ["b"] 1).dependencies.length +
          (mkState "a" ["b"] 1).suppressed.length ∧
      (promoteSuppressed (mkState "a" ["b"] 1) "b").dependencies.length +
          (promoteSuppressed (mkState "a" ["b"] 1) "b").suppressed.length =
        (mkState "a" ["b"] 1).dependencies.length +
          (mkState "a" ["b"] 1).suppressed.length ∧
      (dependency_priorities (patchIndirectStep (mkState "a" ["b"] 1) "b" true false)).length =
        (patchIndirectStep (mkState "a" ["b"] 1) "b" true false).dependencies.length +
          (patchIndirectStep (mkState "a" ["b"] 1) "b" true false).suppressed.length ∧
      find_cache_meta "a" (some metaBadLen) mgr0 = none) :=
  ⟨⟨by decide, by decide⟩,
    dep_arrays_invariant (mkState "a" ["b"] 1) "b" "a" metaBadLen mgr0 true false
      ["b"] (by decide) (by decide)⟩

/- #### C4: plugin-snapshot change and cache rejection -/

/-- Counterexample to C4 as stated: the previous build recorded an empty
plugin snapshot, the current build has one plugin, so the recorded snapshot
differs from the current one — yet `find_cache_meta` accepts the metadata,
because the code only compares the snapshots when both are truthy
(build.py:918). -/
theorem find_cache_meta_plugins_counterexample :
    mgrPlugins.old_plugins_snapshot = some [] ∧
      mgrPlugins.plugins_snapshot ≠ [] ∧
      dictEq mgrPlugins.plugins_snapshot
        (mgrPlugins.old_plugins_snapshot.getD []) = false ∧
      find_cache_meta "a" (some metaOk) mgrPlugins = some metaOk := by
  refine ⟨rfl, by decide, by decide, ?_⟩
  decide

/-- C4 (amended): when the previous build's recorded plugin snapshot and
the current one are both nonempty and differ, `find_cache_meta` returns
`None` for every module id and every loaded metadata record. -/
theorem find_cache_meta_plugins_differ (id : String) (loaded : Option CacheMeta)
    (m : Manager) (h1 : truthySnapshot m.old_plugins_snapshot = true)
    (h2 : m.plugins_snapshot ≠ [])
    (h3 : dictEq m.plugins_snapshot (m.old_plugins_snapshot.getD []) = false) :
    find_cache_meta id loaded m = none := by
  match loaded with
  | none => rfl
  | some mt =>
    simp only [find_cache_meta]
    by_cases c1 : (mt.id ≠ some id ∨ mt.mtime = none ∨ mt.size = none ∨
        mt.dependencies = none ∨ mt.data_mtime = none ∨
        (m.cache_fine_grained = true ∧ mt.deps_mtime = none))
    · rw [if_pos c1]
    · rw [if_neg c1]
      by_cases c2 : ((mt.version_id ≠ some m.version_id ∧ ¬ m.skip_version_check = true) ∨
          mt.options = none ∨
          (mt.dependencies.getD []).length + mt.suppressed.length ≠ mt.dep_prios.length ∨
          (mt.dependencies.getD []).length + mt.suppressed.length ≠ mt.dep_lines.length)
      · rw [if_pos c2]
      · rw [if_neg c2]
        by_cases c3 : ¬ dictEq
            (delKey
              (if m.skip_version_check = true then
                setKey
                  (if m.quick_and_dirty = true then
                    setKey (mt.options.getD []) "quick_and_dirty" "True"
                  else mt.options.getD [])
                  "platform" (lookupD (m.current_options id) "platform" "")
              else
                if m.quick_and_dirty = true then
                  setKey (mt.options.getD []) "quick_and_dirty" "True"
                else mt.options.getD [])
              "debug_cache")
            (m.current_options id) = true
        · rw [if_pos c3]
        · rw [if_neg c3, if_pos]
          refine ⟨h1, ?_, by simp [h3]⟩
          simpa using h2

/- #### C5: validate_meta's Replace branch -/

/-- C5: outside bazel mode, when all earlier checks pass and the recorded
mtime or path disagrees with the source file while the freshly computed
source digest equals `meta.hash`, `validate_meta` returns the metadata with
its `mtime` and `path` fields replaced by the current values, and persists
the updated record to the metadata file. -/
theorem validate_meta_replace (mt : CacheMeta) (id path0 : String)
    (ignore_all : Bool) (m : Manager) (st : StatRes) (hsh : String)
    (hig : ¬ (mt.ignore_all = true ∧ ¬ ignore_all = true))
    (hbz : m.bazel = false)
    (hdm : some (m.getmtime mt.data_json) = mt.data_mtime)
    (hfg : m.cache_fine_grained = true →
      some (m.getmtime (mt.deps_json.getD "")) = mt.deps_mtime)
    (hst : m.get_stat (m.normpath path0) = some st)
    (hreg : st.is_reg = true)
    (hsz : some st.size = mt.size ∨ m.use_fine_grained_cache = true)
    (hmm : some st.mtime ≠ mt.mtime ∨ some (m.normpath path0) ≠ mt.path)
    (hmd : m.md5 (m.normpath path0) = some hsh)
    (hh : mt.hash = some hsh) :
    validate_meta (some mt) id (some path0) ignore_all m =
      ⟨some { mt with mtime := some st.mtime, path := some (m.normpath path0) },
       [(m.meta_file id (m.normpath path0),
         { id := id, path := m.normpath path0, mtime := st.mtime,
           size := st.size, hash := hsh,
           data_mtime := m.getmtime mt.data_json,
           deps_mtime := if m.cache_fine_grained = true then
             some (m.getmtime (mt.deps_json.getD "")) else none,
           dependencies := mt.dependencies, suppressed := mt.suppressed,
           child_modules := mt.child_modules, options := m.current_options id,
           dep_prios := mt.dep_prios, dep_lines := mt.dep_lines,
           interface_hash := mt.interface_hash, version_id := m.version_id,
           ignore_all := mt.ignore_all })]⟩ := by
  simp only [validate_meta, hst, hmd, hbz, Bool.false_eq_true, if_false,
    not_false_iff, true_and, ite_false]
  rw [if_neg hig, if_neg (by simp [hdm])]
  rw [if_neg (by rintro ⟨hcf, hne⟩; exact hne (by rw [if_pos hcf]; exact hfg hcf))]
  rw [if_neg (by simp [hreg])]
  rw [if_neg (fun h => hsz.elim (fun he => h.1 he) (fun hf => h.2 hf))]
  rw [if_pos (by simpa using hmm)]
  rw [if_neg (by rw [hh]; simp)]

/-- Witness for C5 at a concrete input: `metaOk` records mtime 3 while the
file now has mtime 9, but sizes and hashes agree. -/
theorem validate_meta_replace_witness :
    (¬ (metaOk.ignore_all = true ∧ ¬ false = true) ∧
      mgr0.bazel = false ∧
      some (mgr0.getmtime metaOk.data_json) = metaOk.data_mtime ∧
      mgr0.get_stat (mgr0.normpath "a.py") = some ⟨true, 7, 9⟩ ∧
      (some (9 : Nat) ≠ metaOk.mtime ∨ some (mgr0.normpath "a.py") ≠ metaOk.path) ∧
      mgr0.md5 (mgr0.normpath "a.py") = some "h" ∧
      metaOk.hash = some "h") ∧
    validate_meta (some metaOk) "a" (some "a.py") false mgr0 =
      ⟨some { metaOk with mtime := some 9, path := some (mgr0.normpath "a.py") },
       [(mgr0.meta_file "a" (mgr0.normpath "a.py"),
         { id := "a", path := mgr0.normpath "a.py", mtime := 9, size := 7,
           hash := "h", data_mtime := mgr0.getmtime metaOk.data_json,
           deps_mtime := if mgr0.cache_fine_grained = true then
             some (mgr0.getmtime (metaOk.deps_json.getD "")) else none,
           dependencies := metaOk.dependencies, suppressed := metaOk.suppressed,
           child_modules := metaOk.child_modules,
           options := mgr0.current_options "a",
           dep_prios := metaOk.dep_prios, dep_lines := metaOk.dep_lines,
           interface_hash := metaOk.interface_hash,
           version_id := mgr0.version_id, ignore_all := metaOk.ignore_all })]⟩ :=
  ⟨⟨by decide, by decide, by decide, by decide, by decide, by decide, by decide⟩,
    validate_meta_replace metaOk "a" "a.py" false mgr0 ⟨true, 7, 9⟩ "h"
      (by decide) (by decide) (by decide) (by decide) (by decide) (by decide)
      (by decide) (by decide) (by decide) (by decide)⟩

/- #### C8: transitive_error and cache writes -/

/-- A module state carrying a transitive error but no path (e.g. a module
supplied as literal text). -/
def errNoPathState : ModState :=
  { id := "a", path := "", dependencies := [], suppressed := [],
    priorities := [], dep_line_map := [], order := 1, meta := some metaOk,
    externally_same := true, child_modules := [], transitive_error := true,
    ignore_all := false, interface_hash := "" }

/-- Write-cache options with caching fully enabled. -/
def writeOptsOn : WriteOpts :=
  { cache_disabled := false, fine_grained_incremental := false,
    quick_and_dirty := false }

/-- Counterexample to C8 as stated: a module with `transitive_error` but an
empty path returns from `write_cache` before the error branch, so its
existing cache files are not deleted and `meta` is not cleared
(build.py:1863-1866). -/
theorem write_cache_errors_counterexample :
    errNoPathState.transitive_error = true ∧
      writeOptsOn.quick_and_dirty = false ∧
      (state_write_cache errNoPathState writeOptsOn false "h" none).2 ≠
        CacheAction.deleted ∧
      (state_write_cache errNoPathState writeOptsOn false "h" none).1.meta ≠ none ∧
      (state_write_cache errNoPathState writeOptsOn false "h" none).1.externally_same =
        true := by
  decide

/-- C8 (amended): outside quick-and-dirty mode, a module whose
`transitive_error` flag is set when the stale pipeline finishes it never
has its cache written; when moreover the module has a path, caching is
enabled and fine-grained incremental mode is off, `write_cache` deletes
the existing cache files, clears `meta`, and marks the interface stale. -/
theorem write_cache_errors (s : ModState) (o : WriteOpts) (isErr : Bool)
    (nih : String) (nm : Option CacheMeta)
    (hqd : o.quick_and_dirty = false) (ht : s.transitive_error = true) :
    (state_write_cache s o isErr nih nm).2 ≠ CacheAction.wrote ∧
      ((s.path ≠ "" ∧ o.cache_disabled = false ∧ o.fine_grained_incremental = false) →
        state_write_cache s o isErr nih nm =
          ({ s with meta := none, externally_same := false },
            CacheAction.deleted)) := by
  unfold state_write_cache
  by_cases h0 : (s.path = "" ∨ o.cache_disabled = true ∨ o.fine_grained_incremental = true)
  · rw [if_pos h0]
    refine ⟨by simp, ?_⟩
    rintro ⟨h1, h2, h3⟩
    rcases h0 with h | h | h
    · exact absurd h h1
    · rw [h2] at h; cases h
    · rw [h3] at h; cases h
  · rw [if_neg h0]
    rw [hqd]
    simp only [Bool.false_eq_true, if_false, ite_false, ht, if_pos]
    exact ⟨by simp, fun _ => by simp⟩

/-- Witness for C8's amended theorem at a concrete input. -/
theorem write_cache_errors_witness :
    (writeOptsOn.quick_and_dirty = false ∧
      { mkState "a" [] 1 with transitive_error := true }.transitive_error = true) ∧
    ((state_write_cache { mkState "a" [] 1 with transitive_error := true }
        writeOptsOn false "h" none).2 ≠ CacheAction.wrote ∧
      (({ mkState "a" [] 1 with transitive_error := true }.path ≠ "" ∧
          writeOptsOn.cache_disabled = false ∧
          writeOptsOn.fine_grained_incremental = false) →
        state_write_cache { mkState "a" [] 1 with transitive_error := true }
            writeOptsOn false "h" none =
          ({ { mkState "a" [] 1 with transitive_error := true } with
              meta := none, externally_same := false }, CacheAction.deleted))) :=
  ⟨⟨by decide, by decide⟩,
    write_cache_errors { mkState "a" [] 1 with transitive_error := true }
      writeOptsOn false "h" none (by decide) (by decide)⟩

/- #### C3: the freshness classification -/

theorem sccStaleDeps_eq_nil_iff (g : BGraph) (ascc scc : List String) :
    sccStaleDeps g ascc scc = [] ↔
      (∀ d, (∃ id ∈ scc, d ∈ (g.st id).dependencies) → d ∉ ascc → d ∈ g.keys →
        is_interface_fresh (g.st d)) := by
  unfold sccStaleDeps sccExtDeps
  rw [List.filter_eq_nil]
  constructor
  · intro h d hex hna hk
    rcases hex with ⟨id, hid, hdep⟩
    have hmem : d ∈ (scc.flatMap (fun id => (g.st id).dependencies)).filter
        (fun d => d ∉ ascc) := by
      rw [List.mem_filter]
      exact ⟨List.mem_flatMap.mpr ⟨id, hid, hdep⟩, by simpa using hna⟩
    have := h d hmem
    by_cases hf : is_interface_fresh (g.st d)
    · exact hf
    · exact absurd (by simp [hk, hf]) this
  · intro h d hmem
    rw [List.mem_filter] at hmem
    obtain ⟨hfm, hna⟩ := hmem
    rcases List.mem_flatMap.mp hfm with ⟨id, hid, hdep⟩
    have := h d ⟨id, hid, hdep⟩ (by simpa using hna)
    simp only [decide_eq_true_eq, not_and, not_not]
    intro hk
    simpa using this hk

theorem sccStale_eq_nil_iff (g : BGraph) (scc : List String) :
    sccStale g scc = [] ↔ ∀ id ∈ scc, is_fresh (g.st id) := by
  unfold sccStale
  rw [List.filter_eq_nil]
  constructor
  · intro h id hid
    have := h id hid
    by_cases hf : is_fresh (g.st id)
    · exact hf
    · exact absurd (by simp [hf]) this
  · intro h id hid
    simp [h id hid]

theorem sccUndeps_eq_nil_iff (g : BGraph) (scc : List String) :
    sccUndeps g scc = [] ↔
      ∀ d, (∃ id ∈ scc, d ∈ (g.st id).suppressed) → d ∉ g.keys := by
  unfold sccUndeps
  rw [List.filter_eq_nil]
  constructor
  · intro h d hex hk
    rcases hex with ⟨id, hid, hsup⟩
    exact absurd (by simpa using hk)
      (h d (List.mem_flatMap.mpr ⟨id, hid, hsup⟩))
  · intro h d hmem hk
    rcases List.mem_flatMap.mp hmem with ⟨id, hid, hsup⟩
    exact h d ⟨id, hid, hsup⟩ (by simpa using hk)

/-- If there are no stale external dependencies, the newest-dependency
mtime is zero. -/
theorem sccNewest_of_no_stale (g : BGraph) (ascc scc : List String)
    (h : sccStaleDeps g ascc scc = []) : sccNewest g ascc scc = 0 := by
  unfold sccNewest
  rw [h]
  rfl

theorem classify_false_char (g : BGraph) (ascc scc : List String) :
    classifyScc g ascc scc false = true ↔
      (sccStale g scc = [] ∧ sccStaleDeps g ascc scc = [] ∧
        sccUndeps g scc = []) := by
  unfold classifyScc
  by_cases h1 : sccStale g scc = []
  · by_cases h2 : sccStaleDeps g ascc scc = []
    · by_cases h3 : sccUndeps g scc = []
      · simp [h1, h2, h3, sccNewest_of_no_stale g ascc scc h2]
      · simp [h1, h2, h3, List.isEmpty_iff]
    · simp [h1, h2, List.isEmpty_iff]
  · simp [h1, List.isEmpty_iff]

/-- C3 (amended): outside quick-and-dirty mode, `process_graph` classifies
an SCC as fresh (queues it instead of running the stale pipeline) if and
only if every member is fresh, every external dependency in the graph has
a fresh interface, no previously suppressed dependency is a graph key, and
the oldest data-artifact mtime in the SCC is at least the newest one among
the (possibly-stale) external dependencies (the last condition being
automatic once the others hold, since no viable stale dependency
remains). -/
theorem classifyScc_iff_freshSpec (g : BGraph) (ascc scc : List String)
    (hne : scc ≠ []) :
    classifyScc g ascc scc false = true ↔ freshSpec g ascc scc := by
  rw [classify_false_char]
  unfold freshSpec
  constructor
  · rintro ⟨h1, h2, h3⟩
    exact ⟨(sccStale_eq_nil_iff g scc).mp h1,
      (sccStaleDeps_eq_nil_iff g ascc scc).mp h2,
      (sccUndeps_eq_nil_iff g scc).mp h3,
      by simp [sccNewest_of_no_stale g ascc scc h2]⟩
  · rintro ⟨hs, hd, hu, _⟩
    exact ⟨(sccStale_eq_nil_iff g scc).mpr hs,
      (sccStaleDeps_eq_nil_iff g ascc scc).mpr hd,
      (sccUndeps_eq_nil_iff g scc).mpr hu⟩

/-- Counterexample to C3 as stated: in quick-and-dirty mode an SCC whose
members are all fresh is classified fresh ("fresh(ish)", build.py:2466-2467)
even though an external dependency has a stale interface, so the
clause-by-clause freshness condition does not characterize the decision in
every mode. -/
theorem classifyScc_counterexample :
    classifyScc gQd ["a"] ["a"] true = true ∧ ¬ freshSpec gQd ["a"] ["a"] := by
  constructor
  · decide
  · intro h
    have := h.2.1 "d" ⟨"a", by decide, by decide⟩ (by decide) (by decide)
    revert this
    decide

/-- Witness for C3's amended theorem at a concrete input: the same graph
with the dependency interface fresh. -/
theorem classifyScc_iff_freshSpec_witness :
    ((["a"] : List String) ≠ []) ∧
      (classifyScc gQd ["d"] ["d"] false = true ↔ freshSpec gQd ["d"] ["d"]) :=
  ⟨by decide, classifyScc_iff_freshSpec gQd ["d"] ["d"] (by decide)⟩

/- #### C7: phase ordering inside the stale pipeline -/

theorem rankLe_refl (a : Nat × Nat) : rankLe a a := Or.inr ⟨rfl, Nat.le_refl _⟩

theorem rankLe_of_lt {a b : Nat × Nat} (h : a.1 < b.1) : rankLe a b := Or.inl h

theorem pairwiseOfForall {α : Type} {R : α → α → Prop} :
    ∀ l : List α, (∀ a ∈ l, ∀ b ∈ l, R a b) → l.Pairwise R
  | [], _ => List.Pairwise.nil
  | a :: t, h =>
    List.Pairwise.cons (fun b hb => h a (by simp) b (by simp [hb]))
      (pairwiseOfForall t (fun x hx y hy => h x (by simp [hx]) y (by simp [hy])))

/-- Every event of the fixpoint loop is a `typeCheckSecond` of round at
least `r`. -/
theorem tcSecondRounds_phase (stale : List String) (sp : Nat → String → Bool) :
    ∀ fuel r, ∀ e ∈ (tcSecondRounds stale sp fuel r).1,
      ∃ k, r ≤ k ∧ e.1 = Phase.typeCheckSecond k := by
  intro fuel
  induction fuel with
  | zero => intro r e he; simp [tcSecondRounds] at he
  | succ n ih =>
    intro r e he
    simp only [tcSecondRounds] at he
    by_cases hm : stale.any (fun id => sp r id) = true
    · rw [if_pos hm] at he
      rcases List.mem_append.mp he with h | h
      · rcases List.mem_map.mp h with ⟨id, _, rfl⟩
        exact ⟨r, Nat.le_refl r, rfl⟩
      · rcases ih (r + 1) e h with ⟨k, hk, he⟩
        exact ⟨k, Nat.le_of_succ_le hk, he⟩
    · rw [if_neg hm] at he
      rcases List.mem_map.mp he with ⟨id, _, rfl⟩
      exact ⟨r, Nat.le_refl r, rfl⟩

/-- The fixpoint loop's events are ordered by round. -/
theorem tcSecondRounds_pairwise (stale : List String) (sp : Nat → String → Bool) :
    ∀ fuel r, ((tcSecondRounds stale sp fuel r).1).Pairwise
      (fun a b => rankLe (phaseRank a) (phaseRank b)) := by
  intro fuel
  induction fuel with
  | zero => intro r; simp [tcSecondRounds]
  | succ n ih =>
    intro r
    simp only [tcSecondRounds]
    by_cases hm : stale.any (fun id => sp r id) = true
    · rw [if_pos hm]
      rw [List.pairwise_append]
      refine ⟨?_, ih (r + 1), ?_⟩
      · exact pairwiseOfForall _ (by
          intro a ha b hb
          rcases List.mem_map.mp ha with ⟨x, _, rfl⟩
          rcases List.mem_map.mp hb with ⟨y, _, rfl⟩
          exact rankLe_refl _)
      · intro a ha b hb
        rcases List.mem_map.mp ha with ⟨x, _, rfl⟩
        rcases tcSecondRounds_phase stale sp n (r + 1) b hb with ⟨k, hk, hbp⟩
        have hpb : phaseRank b = (8, k) := by unfold phaseRank; rw [hbp]
        have hpa : phaseRank (Phase.typeCheckSecond r, x) = (8, r) := rfl
        rw [hpa, hpb]
        exact Or.inr ⟨rfl, Nat.le_of_succ_le hk⟩
    · rw [if_neg hm]
      exact pairwiseOfForall _ (by
        intro a ha b hb
        rcases List.mem_map.mp ha with ⟨x, _, rfl⟩
        rcases List.mem_map.mp hb with ⟨y, _, rfl⟩
        exact rankLe_refl _)

/-- Round `r` is always run: its events are in the loop's trace. -/
theorem tcSecondRounds_first_round (stale : List String) (sp : Nat → String → Bool)
    (fuel r : Nat) (hf : 1 ≤ fuel) :
    ∀ id ∈ stale, (Phase.typeCheckSecond r, id) ∈ (tcSecondRounds stale sp fuel r).1 := by
  intro id hid
  cases fuel with
  | zero => cases hf
  | succ n =>
    simp only [tcSecondRounds]
    by_cases hm : stale.any (fun idx => sp r idx) = true
    · rw [if_pos hm]
      exact List.mem_append.mpr (Or.inl (List.mem_map.mpr ⟨id, hid, rfl⟩))
    · rw [if_neg hm]
      exact List.mem_map.mpr ⟨id, hid, rfl⟩

/-- If the loop reports quiescence, its last round saw every node decline
another round, and that round's events are in the trace. -/
theorem tcSecondRounds_done (stale : List String) (sp : Nat → String → Bool) :
    ∀ fuel r, (tcSecondRounds stale sp fuel r).2 = true →
      ∃ k, r ≤ k ∧ (∀ id ∈ stale, sp k id = false) ∧
        (∀ id ∈ stale, (Phase.typeCheckSecond k, id) ∈ (tcSecondRounds stale sp fuel r).1) := by
  intro fuel
  induction fuel with
  | zero => intro r h; simp [tcSecondRounds] at h
  | succ n ih =>
    intro r h
    simp only [tcSecondRounds] at h ⊢
    by_cases hm : stale.any (fun id => sp r id) = true
    · rw [if_pos hm] at h ⊢
      rcases ih (r + 1) h with ⟨k, hk, hall, hmem⟩
      exact ⟨k, Nat.le_of_succ_le hk, hall,
        fun id hid => List.mem_append.mpr (Or.inr (hmem id hid))⟩
    · rw [if_neg hm] at h ⊢
      refine ⟨r, Nat.le_refl r, ?_, ?_⟩
      · intro id hid
        by_cases hs : sp r id = true
        · exact absurd (List.any_eq_true.mpr ⟨id, hid, hs⟩) hm
        · simpa using hs
      · intro id hid
        exact List.mem_map.mpr ⟨id, hid, rfl⟩

/-- Appending a block whose ranks all exceed the prefix's preserves
orderedness. -/
theorem pairwise_append_rank (l1 l2 : List Event) (c : Nat)
    (h1 : l1.Pairwise (fun a b => rankLe (phaseRank a) (phaseRank b)))
    (h2 : l2.Pairwise (fun a b => rankLe (phaseRank a) (phaseRank b)))
    (hub : ∀ e ∈ l1, (phaseRank e).1 ≤ c)
    (hlb : ∀ e ∈ l2, c < (phaseRank e).1) :
    (l1 ++ l2).Pairwise (fun a b => rankLe (phaseRank a) (phaseRank b)) :=
  List.pairwise_append.mpr ⟨h1, h2, fun a ha b hb =>
    Or.inl (Nat.lt_of_le_of_lt (hub a ha) (hlb b hb))⟩

/-- A block mapping one phase over a node list is trivially ordered. -/
theorem pairwise_const_block (ph : Phase) (l : List String) :
    (l.map (fun id => ((ph : Phase), id))).Pairwise
      (fun a b => rankLe (phaseRank a) (phaseRank b)) :=
  pairwiseOfForall _ (by
    intro a ha b hb
    rcases List.mem_map.mp ha with ⟨x, _, rfl⟩
    rcases List.mem_map.mp hb with ⟨y, _, rfl⟩
    exact rankLe_refl _)

/-- The rank of an event depends only on its phase. -/
theorem rank_fst_of_map (ph : Phase) (l : List String) (c : Nat)
    (h : (phaseRank (ph, "")).1 = c) :
    ∀ e ∈ l.map (fun id => ((ph : Phase), id)), (phaseRank e).1 = c := by
  intro e he
  rcases List.mem_map.mp he with ⟨x, _, rfl⟩
  exact h

theorem ub_append {c : Nat} {l1 l2 : List Event}
    (h1 : ∀ e ∈ l1, (phaseRank e).1 ≤ c) (h2 : ∀ e ∈ l2, (phaseRank e).1 ≤ c) :
    ∀ e ∈ l1 ++ l2, (phaseRank e).1 ≤ c := by
  intro e he
  rcases List.mem_append.mp he with h | h
  · exact h1 e h
  · exact h2 e h

theorem ub_mono {c d : Nat} {l : List Event} (hcd : c ≤ d)
    (h : ∀ e ∈ l, (phaseRank e).1 ≤ c) : ∀ e ∈ l, (phaseRank e).1 ≤ d :=
  fun e he => Nat.le_trans (h e he) hcd

/-- C7: in `process_stale_scc`, for consecutive pipeline phases every stale
node's phase-k event precedes every phase-(k+1) event (the trace is sorted
by phase rank, with type-check-second rounds ordered by round number);
every stale node runs every phase, each second-pass round covers all stale
nodes, and if the fixpoint loop terminated then its last round saw every
stale node report no further work. -/
theorem process_stale_scc_phase_order (scc : List String) (qd : Bool)
    (isF : String → Bool) (sp : Nat → String → Bool) (fuel : Nat)
    (hf : 1 ≤ fuel) :
    ((process_stale_scc scc qd isF sp fuel).1).Pairwise
      (fun a b => rankLe (phaseRank a) (phaseRank b)) ∧
    (∀ id ∈ staleOf scc qd isF, ∀ ph ∈ ([Phase.parseFile, Phase.fixSuppressed,
        Phase.semAnal, Phase.semAnalPass3, Phase.applyPatches,
        Phase.typeCheckFirst, Phase.typeCheckSecond 0, Phase.unusedIgnores,
        Phase.finishPasses] : List Phase),
      (ph, id) ∈ (process_stale_scc scc qd isF sp fuel).1) ∧
    ((process_stale_scc scc qd isF sp fuel).2 = true →
      ∃ r, (∀ id ∈ staleOf scc qd isF, sp r id = false) ∧
        ∀ id ∈ staleOf scc qd isF,
          (Phase.typeCheckSecond r, id) ∈ (process_stale_scc scc qd isF sp fuel).1) := by
  set fresh := (if qd then scc.filter (fun id => isF id) else []) with hfresh
  set stale := staleOf scc qd isF with hstaledef
  have hstale : (if qd then scc.filter (fun id => ¬ isF id) else scc) = stale := rfl
  set B0 := fresh.map (fun id => (Phase.loadTree, id)) with hB0
  set B1 := stale.flatMap
    (fun id => [(Phase.parseFile, id), (Phase.fixSuppressed, id)]) with hB1
  set B2 := (if "typing" ∈ scc then [(Phase.addAliases, "typing")] else []) with hB2
  set B3 := fresh.map (fun id => (Phase.fixCrossRefs, id)) with hB3
  set B4 := stale.map (fun id => (Phase.semAnal, id)) with hB4
  set B5 := stale.map (fun id => (Phase.semAnalPass3, id)) with hB5
  set B6 := stale.map (fun id => (Phase.applyPatches, id)) with hB6
  set B7 := stale.map (fun id => (Phase.typeCheckFirst, id)) with hB7
  set TC := (tcSecondRounds stale sp fuel 0).1 with hTC
  set B9 := stale.map (fun id => (Phase.unusedIgnores, id)) with hB9
  set B10 := stale.map (fun id => (Phase.finishPasses, id)) with hB10
  have htr : (process_stale_scc scc qd isF sp fuel).1 =
      B0 ++ B1 ++ B2 ++ B3 ++ B4 ++ B5 ++ B6 ++ B7 ++ TC ++ B9 ++ B10 := rfl
  have hdone : (process_stale_scc scc qd isF sp fuel).2 =
      (tcSecondRounds stale sp fuel 0).2 := rfl
  -- per-block rank computations
  have r1 : ∀ e ∈ B1, (phaseRank e).1 = 1 := by
    intro e he
    rcases List.mem_flatMap.mp he with ⟨x, _, hax⟩
    simp only [List.mem_cons, List.mem_singleton] at hax
    rcases hax with rfl | rfl | hax
    · rfl
    · rfl
    · cases hax
  have r2 : ∀ e ∈ B2, (phaseRank e).1 = 2 := by
    intro e he
    rw [hB2] at he
    by_cases ht : "typing" ∈ scc <;> simp [ht] at he
    rw [he]; rfl
  have rTC : ∀ e ∈ TC, (phaseRank e).1 = 8 := by
    intro e he
    rcases tcSecondRounds_phase stale sp fuel 0 e he with ⟨k, _, hk⟩
    show (phaseRank e).1 = 8
    unfold phaseRank
    rw [hk]
  -- pairwise for each block
  have p1 : B1.Pairwise (fun a b => rankLe (phaseRank a) (phaseRank b)) :=
    pairwiseOfForall _ (fun a ha b hb => by
      rw [show phaseRank a = (1, 0) from ?_, show phaseRank b = (1, 0) from ?_]
      · exact rankLe_refl _
      · rcases List.mem_flatMap.mp hb with ⟨x, _, hax⟩
        simp only [List.mem_cons, List.mem_singleton] at hax
        rcases hax with rfl | rfl | hax
        · rfl
        · rfl
        · cases hax
      · rcases List.mem_flatMap.mp ha with ⟨x, _, hax⟩
        simp only [List.mem_cons, List.mem_singleton] at hax
        rcases hax with rfl | rfl | hax
        · rfl
        · rfl
        · cases hax)
  have p2 : B2.Pairwise (fun a b => rankLe (phaseRank a) (phaseRank b)) := by
    rw [hB2]
    by_cases ht : "typing" ∈ scc <;> simp [ht]
  -- chain the blocks with increasing rank bounds
  have acc1 := pairwise_append_rank B0 B1 0 (pairwise_const_block _ _) p1
    (fun e he => Nat.le_of_eq (rank_fst_of_map Phase.loadTree fresh 0 rfl e he))
    (fun e he => by rw [r1 e he]; exact Nat.zero_lt_one)
  have ub1 : ∀ e ∈ B0 ++ B1, (phaseRank e).1 ≤ 1 :=
    ub_append (ub_mono (Nat.zero_le 1)
        (fun e he => Nat.le_of_eq (rank_fst_of_map Phase.loadTree fresh 0 rfl e he)))
      (fun e he => Nat.le_of_eq (r1 e he))
  have acc2 := pairwise_append_rank _ B2 1 acc1 p2 ub1
    (fun e he => by rw [r2 e he]; omega)
  have ub2 : ∀ e ∈ B0 ++ B1 ++ B2, (phaseRank e).1 ≤ 2 :=
    ub_append (ub_mono (by omega) ub1) (fun e he => Nat.le_of_eq (r2 e he))
  have acc3 := pairwise_append_rank _ B3 2 acc2 (pairwise_const_block _ _) ub2
    (fun e he => by rw [rank_fst_of_map Phase.fixCrossRefs fresh 3 rfl e he]; omega)
  have ub3 : ∀ e ∈ B0 ++ B1 ++ B2 ++ B3, (phaseRank e).1 ≤ 3 :=
    ub_append (ub_mono (by omega) ub2)
      (fun e he => Nat.le_of_eq (rank_fst_of_map Phase.fixCrossRefs fresh 3 rfl e he))
  have acc4 := pairwise_append_rank _ B4 3 acc3 (pairwise_const_block _ _) ub3
    (fun e he => by rw [rank_fst_of_map Phase.semAnal stale 4 rfl e he]; omega)
  have ub4 : ∀ e ∈ B0 ++ B1 ++ B2 ++ B3 ++ B4, (phaseRank e).1 ≤ 4 :=
    ub_append (ub_mono (by omega) ub3)
      (fun e he => Nat.le_of_eq (rank_fst_of_map Phase.semAnal stale 4 rfl e he))
  have acc5 := pairwise_append_rank _ B5 4 acc4 (pairwise_const_block _ _) ub4
    (fun e he => by rw [rank_fst_of_map Phase.semAnalPass3 stale 5 rfl e he]; omega)
  have ub5 : ∀ e ∈ B0 ++ B1 ++ B2 ++ B3 ++ B4 ++ B5, (phaseRank e).1 ≤ 5 :=
    ub_append (ub_mono (by omega) ub4)
      (fun e he => Nat.le_of_eq (rank_fst_of_map Phase.semAnalPass3 stale 5 rfl e he))
  have acc6 := pairwise_append_rank _ B6 5 acc5 (pairwise_const_block _ _) ub5
    (fun e he => by rw [rank_fst_of_map Phase.applyPatches stale 6 rfl e he]; omega)
  have ub6 : ∀ e ∈ B0 ++ B1 ++ B2 ++ B3 ++ B4 ++ B5 ++ B6, (phaseRank e).1 ≤ 6 :=
    ub_append (ub_mono (by omega) ub5)
      (fun e he => Nat.le_of_eq (rank_fst_of_map Phase.applyPatches stale 6 rfl e he))
  have acc7 := pairwise_append_rank _ B7 6 acc6 (pairwise_const_block _ _) ub6
    (fun e he => by rw [rank_fst_of_map Phase.typeCheckFirst stale 7 rfl e he]; omega)
  have ub7 : ∀ e ∈ B0 ++ B1 ++ B2 ++ B3 ++ B4 ++ B5 ++ B6 ++ B7, (phaseRank e).1 ≤ 7 :=
    ub_append (ub_mono (by omega) ub6)
      (fun e he => Nat.le_of_eq (rank_fst_of_map Phase.typeCheckFirst stale 7 rfl e he))
  have accTC := pairwise_append_rank _ TC 7 acc7
    (tcSecondRounds_pairwise stale sp fuel 0) ub7
    (fun e he => by rw [rTC e he]; omega)
  have ubTC : ∀ e ∈ B0 ++ B1 ++ B2 ++ B3 ++ B4 ++ B5 ++ B6 ++ B7 ++ TC,
      (phaseRank e).1 ≤ 8 :=
    ub_append (ub_mono (by omega) ub7) (fun e he => Nat.le_of_eq (rTC e he))
  have acc9 := pairwise_append_rank _ B9 8 accTC (pairwise_const_block _ _) ubTC
    (fun e he => by rw [rank_fst_of_map Phase.unusedIgnores stale 9 rfl e he]; omega)
  have ub9 : ∀ e ∈ B0 ++ B1 ++ B2 ++ B3 ++ B4 ++ B5 ++ B6 ++ B7 ++ TC ++ B9,
      (phaseRank e).1 ≤ 9 :=
    ub_append (ub_mono (by omega) ubTC)
      (fun e he => Nat.le_of_eq (rank_fst_of_map Phase.unusedIgnores stale 9 rfl e he))
  have acc10 := pairwise_append_rank _ B10 9 acc9 (pairwise_const_block _ _) ub9
    (fun e he => by rw [rank_fst_of_map Phase.finishPasses stale 10 rfl e he]; omega)
  refine ⟨by rw [htr]; exact acc10, ?_, ?_⟩
  · intro id hid ph hph
    rw [htr]
    simp only [List.mem_append]
    simp only [List.mem_cons, List.not_mem_nil, or_false] at hph
    have hmem : ∀ p : Phase, (p, id) ∈ stale.map (fun i => ((p : Phase), i)) :=
      fun p => List.mem_map.mpr ⟨id, hid, rfl⟩
    rcases hph with rfl | rfl | rfl | rfl | rfl | rfl | rfl | rfl | rfl
    · exact Or.inl (Or.inl (Or.inl (Or.inl (Or.inl (Or.inl (Or.inl (Or.inl
        (Or.inl (Or.inr (List.mem_flatMap.mpr ⟨id, hid, by simp⟩))))))))))
    · exact Or.inl (Or.inl (Or.inl (Or.inl (Or.inl (Or.inl (Or.inl (Or.inl
        (Or.inl (Or.inr (List.mem_flatMap.mpr ⟨id, hid, by simp⟩))))))))))
    · exact Or.inl (Or.inl (Or.inl (Or.inl (Or.inl (Or.inl
        (Or.inr (hmem Phase.semAnal)))))))
    · exact Or.inl (Or.inl (Or.inl (Or.inl (Or.inl
        (Or.inr (hmem Phase.semAnalPass3))))))
    · exact Or.inl (Or.inl (Or.inl (Or.inl
        (Or.inr (hmem Phase.applyPatches)))))
    · exact Or.inl (Or.inl (Or.inl (Or.inr (hmem Phase.typeCheckFirst))))
    · exact Or.inl (Or.inl (Or.inr
        (tcSecondRounds_first_round stale sp fuel 0 hf id hid)))
    · exact Or.inl (Or.inr (hmem Phase.unusedIgnores))
    · exact Or.inr (hmem Phase.finishPasses)
  · intro hd
    rw [hdone] at hd
    rcases tcSecondRounds_done stale sp fuel 0 hd with ⟨r, _, hall, hmem⟩
    refine ⟨r, hall, ?_⟩
    intro id hid
    rw [htr]
    simp only [List.mem_append]
    exact Or.inl (Or.inl (Or.inr (hmem id hid)))

/-- Witness for C7 at a concrete input: a two-module SCC, no
quick-and-dirty mode, second pass requesting one extra round. -/
theorem process_stale_scc_phase_order_witness :
    (1 ≤ 3) ∧
    (((process_stale_scc ["a", "b"] false (fun _ => false)
        (fun r _ => decide (r = 0)) 3).1).Pairwise
      (fun a b => rankLe (phaseRank a) (phaseRank b)) ∧
    (∀ id ∈ staleOf ["a", "b"] false (fun _ => false),
      ∀ ph ∈ ([Phase.parseFile, Phase.fixSuppressed,
        Phase.semAnal, Phase.semAnalPass3, Phase.applyPatches,
        Phase.typeCheckFirst, Phase.typeCheckSecond 0, Phase.unusedIgnores,
        Phase.finishPasses] : List Phase),
      (ph, id) ∈ (process_stale_scc ["a", "b"] false (fun _ => false)
        (fun r _ => decide (r = 0)) 3).1) ∧
    ((process_stale_scc ["a", "b"] false (fun _ => false)
        (fun r _ => decide (r = 0)) 3).2 = true →
      ∃ r, (∀ id ∈ staleOf ["a", "b"] false (fun _ => false),
          (fun r _ => decide (r = 0)) r id = false) ∧
        ∀ id ∈ staleOf ["a", "b"] false (fun _ => false),
          (Phase.typeCheckSecond r, id) ∈
            (process_stale_scc ["a", "b"] false (fun _ => false)
              (fun r _ => decide (r = 0)) 3).1)) :=
  ⟨by decide, process_stale_scc_phase_order ["a", "b"] false (fun _ => false)
    (fun r _ => decide (r = 0)) 3 (by decide)⟩

/-- Witness for C4's amended theorem: both snapshots nonempty and
different. -/
theorem find_cache_meta_plugins_witness :
    (truthySnapshot mgrPluginsBoth.old_plugins_snapshot = true ∧
      mgrPluginsBoth.plugins_snapshot ≠ [] ∧
      dictEq mgrPluginsBoth.plugins_snapshot
        (mgrPluginsBoth.old_plugins_snapshot.getD []) = false) ∧
    find_cache_meta "a" (some metaOk) mgrPluginsBoth = none :=
  ⟨⟨by decide, by decide, by decide⟩,
    find_cache_meta_plugins_differ "a" (some metaOk) mgrPluginsBoth
      (by decide) (by decide) (by decide)⟩

/- #### C6: order_ascc -/

theorem natMax?_spec (l : List Nat) (m : Nat) (h : l.max? = some m) :
    m ∈ l ∧ ∀ p ∈ l, p ≤ m :=
  (List.max?_eq_some_iff (fun a => Nat.le_refl a) max_choice
    (fun _ _ _ => max_le_iff)).mp h

/-- Every priority observed on a filtered intra-SCC edge is in the
spread. -/
theorem mem_priSpread (g : BGraph) (ascc : List String) (pri_max : Nat)
    (id d : String) (hid : id ∈ ascc) (hd : d ∈ (g.st id).dependencies)
    (hda : d ∈ ascc)
    (hlt : lookupD (g.st id).priorities d PRI_HIGH < pri_max) :
    lookupD (g.st id).priorities d PRI_HIGH ∈ priSpread g ascc pri_max := by
  unfold priSpread
  rw [List.mem_dedup, List.mem_flatMap]
  refine ⟨id, hid, ?_⟩
  rw [List.mem_filterMap]
  refine ⟨d, List.mem_filter.mpr ⟨hd, by simpa using hda⟩, ?_⟩
  simp only [if_pos hlt]

/-- Every member of the spread is an observed priority below the cap. -/
theorem priSpread_lt (g : BGraph) (ascc : List String) (pri_max : Nat)
    (p : Nat) (hp : p ∈ priSpread g ascc pri_max) : p < pri_max := by
  unfold priSpread at hp
  rw [List.mem_dedup, List.mem_flatMap] at hp
  rcases hp with ⟨id, _, hp⟩
  rw [List.mem_filterMap] at hp
  rcases hp with ⟨d, _, hp⟩
  by_cases hlt : lookupD (g.st id).priorities d PRI_HIGH < pri_max
  · rw [if_pos hlt] at hp
    cases hp
    exact hlt
  · rw [if_neg hlt] at hp
    cases hp

/-- C6: for an SCC of more than one node, `order_ascc` returns the nodes
sorted by strictly descending discovery order when all intra-SCC edges
below the cap carry one priority; otherwise it lowers the cap to the
maximum observed priority (removing exactly the edges that carry it),
recomputes the SCCs of the reduced subgraph via `sorted_components`, and
returns the concatenation of the recursively ordered sub-SCCs. -/
theorem order_ascc_spec (g : BGraph) (ascc : List String) (pri_max : Nat)
    (hlen : 2 ≤ ascc.length) (hnd : ascc.Nodup)
    (hinj : ∀ a ∈ ascc, ∀ b ∈ ascc, (g.st a).order = (g.st b).order → a = b) :
    ((priSpread g ascc pri_max).length = 1 →
      ∃ l, order_ascc g ascc pri_max = some l ∧ l.Perm ascc ∧
        l.Pairwise (fun a b => (g.st b).order < (g.st a).order)) ∧
    (2 ≤ (priSpread g ascc pri_max).length →
      ∃ m, (priSpread g ascc pri_max).max? = some m ∧
        m ∈ priSpread g ascc pri_max ∧
        (∀ p ∈ priSpread g ascc pri_max, p ≤ m) ∧
        order_ascc g ascc pri_max =
          (match sorted_components g ascc m with
           | none => none
           | some cs => orderAsccList g cs m) ∧
        (∀ id ∈ ascc, deps_filtered g ascc id m =
          (deps_filtered g ascc id pri_max).filter
            (fun d => decide (lookupD (g.st id).priorities d PRI_HIGH ≠ m)))) := by
  have hne1 : ¬ ascc.length = 1 := by omega
  constructor
  · intro hone
    refine ⟨ascc.mergeSort (fun a b => (g.st b).order ≤ (g.st a).order), ?_, ?_, ?_⟩
    · unfold order_ascc
      rw [if_neg hne1, if_pos hone]
    · exact List.mergeSort_perm ascc _
    · have hsorted := @List.sorted_mergeSort String
        (fun a b => decide ((g.st b).order ≤ (g.st a).order))
        (fun a b c hab hbc => by
          simp only [decide_eq_true_eq] at hab hbc ⊢
          exact Nat.le_trans hbc hab)
        (fun a b => by
          simp only [Bool.or_eq_true, decide_eq_true_eq]
          exact Nat.le_total (g.st b).order (g.st a).order)
        ascc
      have hperm := List.mergeSort_perm ascc
        (fun a b => decide ((g.st b).order ≤ (g.st a).order))
      have hnd' : (ascc.mergeSort
          (fun a b => decide ((g.st b).order ≤ (g.st a).order))).Nodup :=
        (hperm.symm).nodup hnd
      have hne : (ascc.mergeSort
          (fun a b => decide ((g.st b).order ≤ (g.st a).order))).Pairwise
          (fun a b => a ≠ b) := hnd'
      refine (hsorted.and hne).imp_of_mem ?_
      intro a b ha hb hab
      have hain : a ∈ ascc := hperm.mem_iff.mp ha
      have hbin : b ∈ ascc := hperm.mem_iff.mp hb
      rcases hab with ⟨hle, hneq⟩
      simp only [decide_eq_true_eq] at hle
      rcases Nat.lt_or_ge (g.st b).order (g.st a).order with h | h
      · exact h
      · exact absurd (hinj b hbin a hain (Nat.le_antisymm hle h)).symm hneq
  · intro htwo
    have hne0 : priSpread g ascc pri_max ≠ [] := by
      intro h
      rw [h] at htwo
      simp at htwo
    have hnone1 : ¬ (priSpread g ascc pri_max).length = 1 := by omega
    cases hm : (priSpread g ascc pri_max).max? with
    | none => exact absurd (List.max?_eq_none_iff.mp hm) hne0
    | some m =>
      rcases natMax?_spec _ m hm with ⟨hmem, hub⟩
      have hmlt : m < pri_max := priSpread_lt g ascc pri_max m hmem
      refine ⟨m, rfl, hmem, hub, ?_, ?_⟩
      · unfold order_ascc
        rw [if_neg hne1, if_neg hnone1]
        rw [hm]
        exact dif_pos hmlt
      · intro id hid
        unfold deps_filtered
        rw [if_neg (by simpa using hid), if_neg (by simpa using hid),
          List.filter_filter]
        apply List.filter_congr
        intro d hd
        by_cases hda : d ∈ ascc
        · simp only [hda, decide_True, Bool.true_and]
          by_cases hlt : lookupD (g.st id).priorities d PRI_HIGH < pri_max
          · have hsp := mem_priSpread g ascc pri_max id d hid hd hda hlt
            have hle := hub _ hsp
            by_cases heq : lookupD (g.st id).priorities d PRI_HIGH = m
            · simp [heq, hlt]
            · have : lookupD (g.st id).priorities d PRI_HIGH < m := by omega
              simp [this, hlt, heq]
          · have : ¬ lookupD (g.st id).priorities d PRI_HIGH < m := by omega
            simp [this, hlt]
        · simp [hda]

/-- Witness for C6 at a concrete input: the mixed-priority two-module
cycle. -/
theorem order_ascc_spec_witness :
    (2 ≤ (["a", "b"] : List String).length ∧ (["a", "b"] : List String).Nodup ∧
      (∀ a ∈ (["a", "b"] : List String), ∀ b ∈ (["a", "b"] : List String),
        (gMix.st a).order = (gMix.st b).order → a = b)) ∧
    (((priSpread gMix ["a", "b"] PRI_ALL).length = 1 →
      ∃ l, order_ascc gMix ["a", "b"] PRI_ALL = some l ∧ l.Perm ["a", "b"] ∧
        l.Pairwise (fun a b => (gMix.st b).order < (gMix.st a).order)) ∧
    (2 ≤ (priSpread gMix ["a", "b"] PRI_ALL).length →
      ∃ m, (priSpread gMix ["a", "b"] PRI_ALL).max? = some m ∧
        m ∈ priSpread gMix ["a", "b"] PRI_ALL ∧
        (∀ p ∈ priSpread gMix ["a", "b"] PRI_ALL, p ≤ m) ∧
        order_ascc gMix ["a", "b"] PRI_ALL =
          (match sorted_components gMix ["a", "b"] m with
           | none => none
           | some cs => orderAsccList gMix cs m) ∧
        (∀ id ∈ (["a", "b"] : List String),
          deps_filtered gMix ["a", "b"] id m =
            (deps_filtered gMix ["a", "b"] id PRI_ALL).filter
              (fun d => decide (lookupD (gMix.st id).priorities d PRI_HIGH ≠ m))))) :=
  ⟨⟨by decide, by decide, by decide⟩,
    order_ascc_spec gMix ["a", "b"] PRI_ALL (by decide) (by decide) (by decide)⟩

/- #### C1: the path-based SCC algorithm -/

theorem lookupKV_cons {β : Type} (a : String) (b : β) (l : List (String × β))
    (k : String) :
    lookupKV ((a, b) :: l) k = if a = k then some b else lookupKV l k := rfl

theorem popBoundaries_suffix (iw : Nat) :
    ∀ l : List Nat, ∃ k, popBoundaries iw l = l.drop k := by
  intro l
  induction l with
  | nil => exact ⟨0, rfl⟩
  | cons b bs ih =>
    by_cases h : iw < b
    · rcases ih with ⟨k, hk⟩
      exact ⟨k + 1, by simp [popBoundaries, h, hk]⟩
    · exact ⟨0, by simp [popBoundaries, h]⟩

theorem popBoundaries_head (iw : Nat) :
    ∀ l : List Nat, popBoundaries iw l = [] ∨
      ∃ b bs, popBoundaries iw l = b :: bs ∧ b ≤ iw := by
  intro l
  induction l with
  | nil => exact Or.inl rfl
  | cons b bs ih =>
    by_cases h : iw < b
    · simpa [popBoundaries, h] using ih
    · exact Or.inr ⟨b, bs, by simp [popBoundaries, h], by omega⟩

theorem mem_popBoundaries_of_le (iw a : Nat) :
    ∀ l : List Nat, a ∈ l → a ≤ iw → a ∈ popBoundaries iw l := by
  intro l
  induction l with
  | nil => intro h; cases h
  | cons b bs ih =>
    intro hmem hle
    by_cases h : iw < b
    · rcases List.mem_cons.mp hmem with rfl | hmem
      · omega
      · simpa [popBoundaries, h] using ih hmem hle
    · simpa [popBoundaries, h] using hmem

theorem zero_mem_drop :
    ∀ (l : List Nat) (k : Nat), l.Pairwise (fun a b => b < a) → 0 ∈ l →
      l.drop k ≠ [] → 0 ∈ l.drop k := by
  intro l
  induction l with
  | nil => intro k _ h; cases h
  | cons a t ih =>
    intro k hp hmem hne
    cases k with
    | zero => simpa using hmem
    | succ n =>
      simp only [List.drop_succ_cons] at hne ⊢
      rcases List.mem_cons.mp hmem with rfl | hmem
      · exfalso
        have hlt := (List.pairwise_cons.mp hp).1
        cases t with
        | nil => simp at hne
        | cons c cs =>
          have := hlt c (by simp)
          omega
      · exact ih n (List.pairwise_cons.mp hp).2 hmem hne

theorem sublist_drop {α : Type} (l : List α) (k : Nat) : (l.drop k).Sublist l :=
  List.drop_sublist k l

/-- Filter-length monotonicity under pointwise implication. -/
theorem filter_length_mono {α : Type} (p q : α → Bool)
    (h : ∀ x, p x = true → q x = true) :
    ∀ l : List α, (l.filter p).length ≤ (l.filter q).length := by
  intro l
  induction l with
  | nil => exact Nat.le_refl 0
  | cons a t ih =>
    by_cases hp : p a = true
    · simp [hp, h a hp]
      omega
    · by_cases hq : q a = true
      · simp [hp, hq]
        omega
      · simp [hp, hq]
        exact ih

/-- Marking a vertex that passes the filter strictly decreases the count. -/
theorem filter_length_mark {α : Type} [DecidableEq α] (p : α → Bool) (v : α) :
    ∀ l : List α, v ∈ l → p v = true →
      (l.filter (fun x => decide (x ≠ v) && p x)).length <
        (l.filter p).length := by
  intro l
  induction l with
  | nil => intro h; cases h
  | cons a t ih =>
    intro hv hp
    by_cases hav : a = v
    · subst hav
      have h1 : (decide (a ≠ a) && p a) = false := by simp
      rw [List.filter_cons, List.filter_cons, h1, if_neg (by simp), if_pos hp]
      simp only [List.length_cons]
      have hmono := filter_length_mono (fun x => decide (x ≠ a) && p x) p
        (fun x h => by
          rcases (Bool.and_eq_true _ _).mp h with ⟨_, h2⟩
          exact h2) t
      omega
    · have hv' : v ∈ t := by
        rcases List.mem_cons.mp hv with h | h
        · exact absurd h.symm hav
        · exact h
      by_cases hpa : p a = true
      · have h1 : (decide (a ≠ v) && p a) = true := by simp [hav, hpa]
        rw [List.filter_cons, List.filter_cons, h1, if_pos rfl, if_pos hpa]
        simp only [List.length_cons]
        exact Nat.succ_lt_succ (ih hv' hp)
      · have h1 : (decide (a ≠ v) && p a) = false := by simp [hpa]
        rw [List.filter_cons, List.filter_cons, h1, if_neg (by simp),
          if_neg (by simpa using hpa)]
        exact ih hv' hp

/-- A vertex on the stack sits at the position its index records. -/
theorem SccInv.stack_pos {edges : String → List String} {V : List String}
    {st : SccSt} (hInv : SccInv edges V st) {v : String} {iv : Nat}
    (hv : v ∈ st.stack) (hlk : lookupKV st.index v = some iv) :
    ∃ h : iv < st.stack.length, st.stack.get ⟨iv, h⟩ = v := by
  rcases List.mem_iff_get.mp hv with ⟨i, hi⟩
  have := hInv.pos i
  rw [hi, hlk] at this
  cases this
  exact ⟨i.isLt, hi⟩

/-- A vertex on the stack is indexed. -/
theorem SccInv.stack_indexed {edges : String → List String} {V : List String}
    {st : SccSt} (hInv : SccInv edges V st) {v : String} (hv : v ∈ st.stack) :
    ∃ iv, lookupKV st.index v = some iv := by
  rcases List.mem_iff_get.mp hv with ⟨i, hi⟩
  exact ⟨i.val, by rw [← hi]; exact hInv.pos i⟩

/-- In a strictly decreasing boundary list, every entry is at most the
head. -/
theorem head_bound_of_sorted {b : Nat} {bs : List Nat}
    (h : (b :: bs).Pairwise (fun a c => c < a)) :
    ∀ c ∈ b :: bs, c ≤ b := by
  intro c hc
  rcases List.mem_cons.mp hc with rfl | hc
  · exact Nat.le_refl c
  · exact Nat.le_of_lt ((List.pairwise_cons.mp h).1 c hc)

/-- Everything on the stack reaches the current vertex, provided every
boundary lies at or below its position. -/
theorem reach_to_current {edges : String → List String} {V : List String}
    {st : SccSt} (hInv : SccInv edges V st) {v : String} {iv : Nat}
    (hv : v ∈ st.stack) (hlk : lookupKV st.index v = some iv)
    (hb : ∀ b ∈ st.boundaries, b ≤ iv) :
    ∀ x ∈ st.stack, Reach edges x v := by
  intro x hx
  rcases List.mem_iff_get.mp hx with ⟨p, hp⟩
  rcases hInv.stack_pos hv hlk with ⟨hivlt, hgv⟩
  rcases Nat.le_total p.val iv with h | h
  · have := hInv.reachUp p ⟨iv, hivlt⟩ h
    rw [hp, hgv] at this
    exact this
  · have := hInv.reachSeg ⟨iv, hivlt⟩ p h
      (fun b hbm => show ¬ (iv < b ∧ b ≤ p.val) from by
        have := hb b hbm; omega)
    rw [hp, hgv] at this
    exact this

/-- The merge step: after a back edge from the current vertex `v` to an
unassigned stack vertex `w`, the segments down to `w`'s position collapse
into one strongly connected segment. -/
theorem merge_reachSeg {edges : String → List String} {V : List String}
    {st : SccSt} (hInv : SccInv edges V st) {v w : String} {iv iw : Nat}
    (hv : v ∈ st.stack) (hlkv : lookupKV st.index v = some iv)
    (hw : w ∈ st.stack) (hlkw : lookupKV st.index w = some iw)
    (hedge : Step edges v w)
    (hhead : ∀ b ∈ st.boundaries, b ≤ iv) :
    ∀ i j : Fin st.stack.length, i.val ≤ j.val →
      (∀ b ∈ popBoundaries iw st.boundaries, ¬ (i.val < b ∧ b ≤ j.val)) →
      Reach edges (st.stack.get j) (st.stack.get i) := by
  intro i j hij hcond
  by_cases hold : ∀ b ∈ st.boundaries, ¬ (i.val < b ∧ b ≤ j.val)
  · exact hInv.reachSeg i j hij hold
  · push_neg at hold
    rcases hold with ⟨b, hbm, hib, hbj⟩
    -- the offending boundary was popped, so it exceeds iw
    have hbpop : b ∉ popBoundaries iw st.boundaries := by
      intro hbin
      exact hcond b hbin ⟨hib, hbj⟩
    have hbgt : iw < b := by
      by_contra h
      exact hbpop (mem_popBoundaries_of_le iw b st.boundaries hbm (by omega))
    rcases hInv.stack_pos hv hlkv with ⟨hivlt, hgv⟩
    rcases hInv.stack_pos hw hlkw with ⟨hiwlt, hgw⟩
    -- (1) stack[j] reaches v
    have h1 : Reach edges (st.stack.get j) v := by
      rcases Nat.le_total j.val iv with h | h
      · have := hInv.reachUp j ⟨iv, hivlt⟩ h
        rw [hgv] at this
        exact this
      · have := hInv.reachSeg ⟨iv, hivlt⟩ j h
          (fun c hcm => show ¬ (iv < c ∧ c ≤ j.val) from by
            have := hhead c hcm; omega)
        rw [hgv] at this
        exact this
    -- (3) w reaches stack[i]
    have h3 : Reach edges w (st.stack.get i) := by
      rcases Nat.le_total iw i.val with h | h
      · have := hInv.reachUp ⟨iw, hiwlt⟩ i h
        rw [hgw] at this
        exact this
      · have := hInv.reachSeg i ⟨iw, hiwlt⟩ h (fun c hcm => show
          ¬ (i.val < c ∧ c ≤ iw) from fun hc => by
          -- an old boundary in (i, iw] would survive the pop and violate
          -- the new condition
          have hle : c ≤ iw := hc.2
          have hsurv := mem_popBoundaries_of_le iw c st.boundaries hcm hle
          exact hcond c hsurv ⟨hc.1, by omega⟩)
        rw [hgw] at this
        exact this
    exact h1.trans ((Relation.ReflTransGen.single hedge).trans h3)

/-- The popped-boundaries state keeps the invariant (the merge step). -/
theorem inv_pop {edges : String → List String} {V : List String}
    {st : SccSt} (hInv : SccInv edges V st) {v w : String} {iv iw : Nat}
    (hv : v ∈ st.stack) (hlkv : lookupKV st.index v = some iv)
    (hw : w ∈ st.stack) (hlkw : lookupKV st.index w = some iw)
    (hedge : Step edges v w)
    (hhead : ∀ b ∈ st.boundaries, b ≤ iv) :
    SccInv edges V { st with boundaries := popBoundaries iw st.boundaries } := by
  rcases popBoundaries_suffix iw st.boundaries with ⟨k, hk⟩
  refine
    { nodup := hInv.nodup
      pos := hInv.pos
      idDom := hInv.idDom
      domCover := hInv.domCover
      stackNotId := hInv.stackNotId
      domV := hInv.domV
      reachUp := hInv.reachUp
      bSorted := by
        simp only
        rw [hk]
        exact hInv.bSorted.sublist (sublist_drop st.boundaries k)
      bLt := by
        intro b hb
        simp only at hb
        rw [hk] at hb
        exact hInv.bLt b (List.mem_of_mem_drop hb)
      bEmpty := by
        intro h
        simp only at h
        cases hbe : st.boundaries with
        | nil => exact hInv.bEmpty hbe
        | cons b bs =>
          exfalso
          have h0 : (0 : Nat) ∈ st.boundaries := hInv.bZero (by rw [hbe]; simp)
          have := mem_popBoundaries_of_le iw 0 st.boundaries h0 (Nat.zero_le iw)
          rw [h] at this
          cases this
      bZero := by
        intro h
        simp only at h ⊢
        cases hbe : st.boundaries with
        | nil => rw [hbe] at h; simp [popBoundaries] at h
        | cons b bs =>
          have h0 : (0 : Nat) ∈ st.boundaries := hInv.bZero (by rw [hbe]; simp)
          exact hbe ▸ mem_popBoundaries_of_le iw 0 st.boundaries h0 (Nat.zero_le iw)
      reachSeg := merge_reachSeg hInv hv hlkv hw hlkw hedge hhead }

/-- The push step of `dfs(v)` keeps the invariant. -/
theorem inv_push {edges : String → List String} {V : List String}
    {st : SccSt} (hInv : SccInv edges V st) {v : String}
    (hvNew : lookupKV st.index v = none) (hvV : v ∈ V)
    (hreach : ∀ x ∈ st.stack, Reach edges x v) :
    SccInv edges V
      { st with index := (v, st.stack.length) :: st.index,
                stack := st.stack ++ [v],
                boundaries := st.stack.length :: st.boundaries } := by
  have hvNotStack : v ∉ st.stack := by
    intro hv
    rcases hInv.stack_indexed hv with ⟨iv, hlk⟩
    rw [hvNew] at hlk
    cases hlk
  have hvNotId : v ∉ st.identified := by
    intro hv
    have := hInv.idDom v hv
    rw [hvNew] at this
    cases this
  have hlen : (st.stack ++ [v]).length = st.stack.length + 1 := by simp
  refine
    { nodup := List.nodup_append.mpr ⟨hInv.nodup, by simp,
        fun x hx hxv => hvNotStack (by
          rcases List.mem_singleton.mp hxv with rfl
          exact hx)⟩
      pos := ?_
      idDom := fun w hw => by
        rw [lookupKV_cons]
        by_cases hvw : v = w
        · simp [hvw]
        · rw [if_neg hvw]
          exact hInv.idDom w hw
      domCover := ?_
      stackNotId := fun w hw => by
        rcases List.mem_append.mp hw with h | h
        · exact hInv.stackNotId w h
        · rcases List.mem_singleton.mp h with rfl
          exact hvNotId
      bSorted := List.pairwise_cons.mpr ⟨fun b hb => hInv.bLt b hb, hInv.bSorted⟩
      bLt := by
        intro b hb
        simp only at hb ⊢
        rw [hlen]
        rcases List.mem_cons.mp hb with rfl | hb
        · omega
        · have := hInv.bLt b hb
          omega
      bEmpty := by intro h; simp at h
      bZero := by
        intro _
        simp only
        cases hbe : st.boundaries with
        | nil =>
          have : st.stack = [] := hInv.bEmpty hbe
          rw [this]
          simp
        | cons b bs =>
          have h0 : (0 : Nat) ∈ st.boundaries := hInv.bZero (by rw [hbe]; simp)
          rw [← hbe]
          exact List.mem_cons_of_mem _ h0
      domV := fun w hw => by
        rw [lookupKV_cons] at hw
        by_cases hvw : v = w
        · exact hvw ▸ hvV
        · rw [if_neg hvw] at hw
          exact hInv.domV w hw
      reachUp := ?_
      reachSeg := ?_ }
  · -- pos
    intro i
    simp only at i ⊢
    by_cases hi : i.val < st.stack.length
    · have hget : (st.stack ++ [v]).get ⟨i.val, by simp; omega⟩ =
          st.stack.get ⟨i.val, hi⟩ := List.get_append i.val hi
      have hgi : (st.stack ++ [v]).get i = st.stack.get ⟨i.val, hi⟩ := by
        rw [← hget]
      rw [hgi, lookupKV_cons]
      have hne : v ≠ st.stack.get ⟨i.val, hi⟩ := by
        intro h
        exact hvNotStack (h ▸ List.get_mem st.stack _ _)
      rw [if_neg hne]
      exact hInv.pos ⟨i.val, hi⟩
    · have hie : i.val = st.stack.length := by
        have := i.isLt
        simp only [List.length_append, List.length_singleton] at this
        omega
      have hget : (st.stack ++ [v]).get i = v := by
        have := @List.get_append_right String i.val st.stack [v]
          (by omega) i.isLt (by rw [hie]; simp)
        rw [this]
        simp [hie]
      rw [hget, lookupKV_cons, if_pos rfl, hie]
  · -- domCover
    intro w hw
    rw [lookupKV_cons] at hw
    by_cases hvw : v = w
    · right
      rw [← hvw]
      simp
    · rw [if_neg hvw] at hw
      rcases hInv.domCover w hw with h | h
      · exact Or.inl h
      · exact Or.inr (List.mem_append.mpr (Or.inl h))
  · -- reachUp
    intro i j hij
    by_cases hj : j.val < st.stack.length
    · have hi : i.val < st.stack.length := by omega
      have hgi : (st.stack ++ [v]).get i = st.stack.get ⟨i.val, hi⟩ := by
        rw [← List.get_append i.val hi]
      have hgj : (st.stack ++ [v]).get j = st.stack.get ⟨j.val, hj⟩ := by
        rw [← List.get_append j.val hj]
      rw [hgi, hgj]
      exact hInv.reachUp ⟨i.val, hi⟩ ⟨j.val, hj⟩ hij
    · have hje : j.val = st.stack.length := by
        have := j.isLt
        simp only [List.length_append, List.length_singleton] at this
        omega
      have hgj : (st.stack ++ [v]).get j = v := by
        have := @List.get_append_right String j.val st.stack [v]
          (by omega) j.isLt (by rw [hje]; simp)
        rw [this]
        simp [hje]
      rw [hgj]
      by_cases hi : i.val < st.stack.length
      · have hgi : (st.stack ++ [v]).get i = st.stack.get ⟨i.val, hi⟩ := by
          rw [← List.get_append i.val hi]
        rw [hgi]
        exact hreach _ (List.get_mem st.stack _ _)
      · have hie : i.val = st.stack.length := by
          have := i.isLt
          simp only [List.length_append, List.length_singleton] at this
          omega
        have hgi : (st.stack ++ [v]).get i = v := by
          have := @List.get_append_right String i.val st.stack [v]
            (by omega) i.isLt (by rw [hie]; simp)
          rw [this]
          simp [hie]
        rw [hgi]
        exact Relation.ReflTransGen.refl
  · -- reachSeg
    intro i j hij hcond
    by_cases hj : j.val < st.stack.length
    · have hi : i.val < st.stack.length := by omega
      have hgi : (st.stack ++ [v]).get i = st.stack.get ⟨i.val, hi⟩ := by
        rw [← List.get_append i.val hi]
      have hgj : (st.stack ++ [v]).get j = st.stack.get ⟨j.val, hj⟩ := by
        rw [← List.get_append j.val hj]
      rw [hgi, hgj]
      refine hInv.reachSeg ⟨i.val, hi⟩ ⟨j.val, hj⟩ hij ?_
      intro b hb
      exact hcond b (List.mem_cons_of_mem _ hb)
    · have hje : j.val = st.stack.length := by
        have := j.isLt
        simp only [List.length_append, List.length_singleton] at this
        omega
      have hie : i.val = st.stack.length := by
        have hc := hcond st.stack.length (List.mem_cons_self _ _)
        have := i.isLt
        simp only [List.length_append, List.length_singleton] at this
        omega
      have : i = j := Fin.ext (by omega)
      rw [this]
      exact Relation.ReflTransGen.refl

/-- The prefix and the emitted slice of a nodup stack are disjoint. -/
theorem take_drop_disjoint {α : Type} (l : List α) (n : Nat) (h : l.Nodup) :
    ∀ x ∈ l.take n, x ∉ l.drop n := by
  have := List.take_append_drop n l
  rw [← this] at h
  exact fun x hx => (List.nodup_append.mp h).2.2 hx

/-- The emission step keeps the invariant. -/
theorem inv_emit {edges : String → List String} {V : List String}
    {st2 : SccSt} (hInv : SccInv edges V st2) {iv : Nat} {rest : List Nat}
    (hb : st2.boundaries = iv :: rest) :
    SccInv edges V
      { st2 with boundaries := rest,
                 stack := st2.stack.take iv,
                 identified := st2.stack.drop iv ++ st2.identified } := by
  have hivlt : iv < st2.stack.length := hInv.bLt iv (by rw [hb]; simp)
  have hrestlt : ∀ b ∈ rest, b < iv := by
    have := hInv.bSorted
    rw [hb] at this
    exact (List.pairwise_cons.mp this).1
  have htlen : (st2.stack.take iv).length = iv :=
    List.length_take_of_le (Nat.le_of_lt hivlt)
  have hget_take : ∀ (i : Nat) (hi : i < iv),
      (st2.stack.take iv).get ⟨i, by omega⟩ =
        st2.stack.get ⟨i, by omega⟩ := by
    intro i hi
    exact (List.get_take st2.stack (by omega) hi).symm
  refine
    { nodup := hInv.nodup.sublist (List.take_sublist iv st2.stack)
      pos := ?_
      idDom := ?_
      domCover := ?_
      stackNotId := ?_
      bSorted := by
        have := hInv.bSorted
        rw [hb] at this
        exact (List.pairwise_cons.mp this).2
      bLt := by
        intro b hbm
        simp only at hbm ⊢
        rw [htlen]
        exact hrestlt b hbm
      bEmpty := by
        intro h
        simp only at h ⊢
        have h0 : (0 : Nat) ∈ iv :: rest := by
          rw [← hb]
          exact hInv.bZero (by rw [hb]; simp)
        rcases List.mem_cons.mp h0 with h0 | h0
        · rw [← h0]
          simp
        · rw [h] at h0
          cases h0
      bZero := by
        intro h
        simp only at h ⊢
        have h0 : (0 : Nat) ∈ iv :: rest := by
          rw [← hb]
          exact hInv.bZero (by rw [hb]; simp)
        rcases List.mem_cons.mp h0 with h0 | h0
        · exfalso
          cases hre : rest with
          | nil => rw [hre] at h; exact h rfl
          | cons c cs =>
            have := hrestlt c (by rw [hre]; simp)
            omega
        · exact h0
      domV := hInv.domV
      reachUp := ?_
      reachSeg := ?_ }
  · -- pos
    intro i
    simp only at i ⊢
    have hi : i.val < iv := by
      have : i.val < (List.take iv st2.stack).length := i.isLt
      omega
    have := hget_take i.val hi
    have hpos := hInv.pos ⟨i.val, by omega⟩
    rw [show (st2.stack.take iv).get i = (st2.stack.take iv).get ⟨i.val, by omega⟩
        from by congr 1, this, hpos]
  · -- idDom
    intro w hw
    rcases List.mem_append.mp hw with h | h
    · rcases hInv.stack_indexed (List.mem_of_mem_drop h) with ⟨k, hk⟩
      rw [hk]
      rfl
    · exact hInv.idDom w h
  · -- domCover
    intro w hw
    rcases hInv.domCover w hw with h | h
    · exact Or.inl (List.mem_append.mpr (Or.inr h))
    · rw [← List.take_append_drop iv st2.stack] at h
      rcases List.mem_append.mp h with h | h
      · exact Or.inr h
      · exact Or.inl (List.mem_append.mpr (Or.inl h))
  · -- stackNotId
    intro w hw hwid
    rcases List.mem_append.mp hwid with h | h
    · exact take_drop_disjoint st2.stack iv hInv.nodup w hw h
    · exact hInv.stackNotId w (List.mem_of_mem_take hw) h
  · -- reachUp
    intro i j hij
    have hi : i.val < iv := by
      have : i.val < (List.take iv st2.stack).length := i.isLt
      omega
    have hj : j.val < iv := by
      have : j.val < (List.take iv st2.stack).length := j.isLt
      omega
    rw [show (st2.stack.take iv).get i = st2.stack.get ⟨i.val, by omega⟩ from by
        rw [show (st2.stack.take iv).get i =
          (st2.stack.take iv).get ⟨i.val, by omega⟩ from by congr 1]
        exact hget_take i.val hi,
      show (st2.stack.take iv).get j = st2.stack.get ⟨j.val, by omega⟩ from by
        rw [show (st2.stack.take iv).get j =
          (st2.stack.take iv).get ⟨j.val, by omega⟩ from by congr 1]
        exact hget_take j.val hj]
    exact hInv.reachUp ⟨i.val, by omega⟩ ⟨j.val, by omega⟩ hij
  · -- reachSeg
    intro i j hij hcond
    have hi : i.val < iv := by
      have : i.val < (List.take iv st2.stack).length := i.isLt
      omega
    have hj : j.val < iv := by
      have : j.val < (List.take iv st2.stack).length := j.isLt
      omega
    rw [show (st2.stack.take iv).get i = st2.stack.get ⟨i.val, by omega⟩ from by
        rw [show (st2.stack.take iv).get i =
          (st2.stack.take iv).get ⟨i.val, by omega⟩ from by congr 1]
        exact hget_take i.val hi,
      show (st2.stack.take iv).get j = st2.stack.get ⟨j.val, by omega⟩ from by
        rw [show (st2.stack.take iv).get j =
          (st2.stack.take iv).get ⟨j.val, by omega⟩ from by congr 1]
        exact hget_take j.val hj]
    refine hInv.reachSeg ⟨i.val, by omega⟩ ⟨j.val, by omega⟩ hij ?_
    intro b hbm
    show ¬ (i.val < b ∧ b ≤ j.val)
    rw [hb] at hbm
    rcases List.mem_cons.mp hbm with rfl | hbm
    · intro hc
      omega
    · exact hcond b hbm

/-- The emitted slice is nonempty, duplicate-free, and strongly
connected. -/
theorem emit_slice {edges : String → List String} {V : List String}
    {st2 : SccSt} (hInv : SccInv edges V st2) {iv : Nat} {rest : List Nat}
    (hb : st2.boundaries = iv :: rest) :
    st2.stack.drop iv ≠ [] ∧ (st2.stack.drop iv).Nodup ∧
      (∀ x ∈ st2.stack.drop iv, ∀ y ∈ st2.stack.drop iv, Reach edges x y) := by
  have hivlt : iv < st2.stack.length := hInv.bLt iv (by rw [hb]; simp)
  have hble : ∀ b ∈ st2.boundaries, b ≤ iv := by
    rw [hb]
    exact head_bound_of_sorted (hb ▸ hInv.bSorted)
  refine ⟨?_, hInv.nodup.sublist (List.drop_sublist iv st2.stack), ?_⟩
  · intro h
    have := congrArg List.length h
    simp only [List.length_drop, List.length_nil] at this
    omega
  · -- mutual reachability: both positions are at or above iv, and no
    -- boundary separates them
    have key : ∀ p q : Fin st2.stack.length, iv ≤ p.val → iv ≤ q.val →
        Reach edges (st2.stack.get p) (st2.stack.get q) := by
      intro p q hp hq
      rcases Nat.le_total p.val q.val with h | h
      · exact hInv.reachUp p q h
      · refine hInv.reachSeg q p h ?_
        intro b hbm
        have := hble b hbm
        omega
    intro x hx y hy
    rcases List.mem_iff_get.mp hx with ⟨px, hpx⟩
    rcases List.mem_iff_get.mp hy with ⟨py, hpy⟩
    have hlx : px.val < st2.stack.length - iv := by
      have := px.isLt
      simp only [List.length_drop] at this
      exact this
    have hly : py.val < st2.stack.length - iv := by
      have := py.isLt
      simp only [List.length_drop] at this
      exact this
    have hgx : st2.stack.get ⟨iv + px.val, by omega⟩ = x := by
      rw [List.get_drop st2.stack (by omega)]
      rw [show (⟨px.val, by simp only [List.length_drop]; omega⟩ :
        Fin (st2.stack.drop iv).length) = px from Fin.ext rfl]
      exact hpx
    have hgy : st2.stack.get ⟨iv + py.val, by omega⟩ = y := by
      rw [List.get_drop st2.stack (by omega)]
      rw [show (⟨py.val, by simp only [List.length_drop]; omega⟩ :
        Fin (st2.stack.drop iv).length) = py from Fin.ext rfl]
      exact hpy
    have := key ⟨iv + px.val, by omega⟩ ⟨iv + py.val, by omega⟩
      (Nat.le_add_right iv px.val) (Nat.le_add_right iv py.val)
    rw [hgx, hgy] at this
    exact this

/-- The edge loop satisfies its specification, given that recursive visits
satisfy theirs at the same fuel. -/
theorem dfsEdges_spec (edges : String → List String) (V : List String)
    (hcl : ∀ u ∈ V, ∀ w ∈ edges u, w ∈ V) (fuel : Nat)
    (hvspec : VisitSpec edges V fuel) : EdgesSpec edges V fuel := by
  intro ws
  induction ws with
  | nil =>
    intro st v iv hInv hv hlkv hbnd hws hvV hfc
    rcases hbnd with ⟨b, bs, hb, hble⟩
    exact ⟨st, [], by simp only [dfsEdges], hInv, fun x _ => rfl,
      fun x => by simp, ⟨[], by simp⟩,
      ⟨0, b, bs, by simp [hb], by simp [hb], hble⟩,
      by simp, by simp, Nat.le_refl _⟩
  | cons w rest ih =>
    intro st v iv hInv hv hlkv hbnd hws hvV hfc
    rcases hbnd with ⟨b, bs, hb, hble⟩
    have hballe : ∀ c ∈ st.boundaries, c ≤ iv := by
      intro c hc
      have h1 : c ≤ b := head_bound_of_sorted (hb ▸ hInv.bSorted) c (hb ▸ hc)
      omega
    by_cases hwn : (lookupKV st.index w).isNone
    · -- new vertex: recursive visit
      have hwnone : lookupKV st.index w = none := Option.isNone_iff_eq_none.mp hwn
      have hwV : w ∈ V := hcl v hvV w (hws w (by simp))
      have hreachw : ∀ x ∈ st.stack, Reach edges x w := by
        intro x hx
        exact (reach_to_current hInv hv hlkv hballe x hx).trans
          (Relation.ReflTransGen.single (hws w (by simp)))
      rcases hvspec st w hInv hwnone hwV hreachw hfc with
        ⟨st', cs1, heq1, hInv', hpres1, hwidx, hid1, ⟨ext1, hstk1⟩, hdich1,
          hcomps1, hpw1, hfc1⟩
      have hvstk' : v ∈ st'.stack := by rw [hstk1]; exact List.mem_append.mpr (Or.inl hv)
      have hlkv' : lookupKV st'.index v = some iv := by
        rw [hpres1 v (by rw [hlkv]; rfl)]
        exact hlkv
      have hbnd' : ∃ b2 bs2, st'.boundaries = b2 :: bs2 ∧ b2 ≤ iv := by
        rcases hdich1 with ⟨hbe, _, _⟩ | ⟨k, hdk, hne, _, _⟩
        · exact ⟨b, bs, by rw [hbe, hb], hble⟩
        · cases hbe2 : st'.boundaries with
          | nil => exact absurd hbe2 hne
          | cons b2 bs2 =>
            refine ⟨b2, bs2, rfl, ?_⟩
            have hmem : b2 ∈ st.boundaries := by
              have : b2 ∈ st'.boundaries := by rw [hbe2]; simp
              rw [hdk] at this
              exact List.mem_of_mem_drop this
            exact hballe b2 hmem
      rcases ih st' v iv hInv' hvstk' hlkv' hbnd' (fun x hx => hws x (by simp [hx]))
        hvV (Nat.lt_trans hfc1 hfc) with
        ⟨st'', cs2, heq2, hInv'', hpres2, hid2, ⟨ext2, hstk2⟩, hbnd2,
          hcomps2, hpw2, hfc2⟩
      refine ⟨st'', cs1 ++ cs2, ?_, hInv'', ?_, ?_, ?_, ?_, ?_, ?_, ?_⟩
      · simp only [dfsEdges, hwnone, Option.isNone_none, if_true, heq1, heq2]
      · intro x hx
        rw [hpres2 x (by rw [hpres1 x hx]; exact hx), hpres1 x hx]
      · intro x
        rw [hid2 x, hid1 x]
        constructor
        · rintro ((h | h) | h)
          · exact Or.inl h
          · rcases h with ⟨c, hc, hxc⟩
            exact Or.inr ⟨c, List.mem_append.mpr (Or.inl hc), hxc⟩
          · rcases h with ⟨c, hc, hxc⟩
            exact Or.inr ⟨c, List.mem_append.mpr (Or.inr hc), hxc⟩
        · rintro (h | ⟨c, hc, hxc⟩)
          · exact Or.inl (Or.inl h)
          · rcases List.mem_append.mp hc with h | h
            · exact Or.inl (Or.inr ⟨c, h, hxc⟩)
            · exact Or.inr ⟨c, h, hxc⟩
      · exact ⟨ext1 ++ ext2, by rw [hstk2, hstk1, List.append_assoc]⟩
      · rcases hbnd2 with ⟨k2, b2, bs2, hd2, hc2, hle2⟩
        rcases hdich1 with ⟨hbe, _, _⟩ | ⟨k, hdk, _, _, _⟩
        · exact ⟨k2, b2, bs2, by rw [← hbe, hd2], hc2, hle2⟩
        · exact ⟨k + k2, b2, bs2, by rw [hd2, hdk, List.drop_drop, Nat.add_comm],
            hc2, hle2⟩
      · intro c hc
        rcases List.mem_append.mp hc with h | h
        · exact hcomps1 c h
        · rcases hcomps2 c h with ⟨hne, hnd, hnotin, hmut⟩
          refine ⟨hne, hnd, ?_, hmut⟩
          intro x hx
          rcases hnotin x hx with ⟨hnid, hnstk⟩
          constructor
          · intro hmem
            exact hnid ((hid1 x).mpr (Or.inl hmem))
          · intro hmem
            exact hnstk (by rw [hstk1]; exact List.mem_append.mpr (Or.inl hmem))
      · rw [List.pairwise_append]
        refine ⟨hpw1, hpw2, ?_⟩
        intro c1 hc1 c2 hc2 x hx1 hx2
        have hxid : x ∈ st'.identified := (hid1 x).mpr (Or.inr ⟨c1, hc1, hx1⟩)
        exact ((hcomps2 c2 hc2).2.2.1 x hx2).1 hxid
      · exact Nat.le_trans hfc2 (Nat.le_of_lt hfc1)
    · -- already indexed
      have hwsome : (lookupKV st.index w).isSome := by
        cases hlw : lookupKV st.index w with
        | none => rw [hlw] at hwn; exact absurd rfl hwn
        | some a => rfl
      by_cases hwid : w ∈ st.identified
      · -- identified: skip
        rcases ih st v iv hInv hv hlkv ⟨b, bs, hb, hble⟩
          (fun x hx => hws x (by simp [hx])) hvV hfc with
          ⟨st'', cs, heq, rest'⟩
        refine ⟨st'', cs, ?_, rest'⟩
        simp only [dfsEdges]
        rw [if_neg (by simpa using hwn), if_neg (by simpa using hwid)]
        exact heq
      · -- merge: pop boundaries
        cases hlw : lookupKV st.index w with
        | none => rw [hlw] at hwn; exact absurd rfl hwn
        | some iw =>
          have hwstk : w ∈ st.stack := by
            rcases hInv.domCover w (by rw [hlw]; rfl) with h | h
            · exact absurd h hwid
            · exact h
          have hInvm : SccInv edges V
              { st with boundaries := popBoundaries iw st.boundaries } :=
            inv_pop hInv hv hlkv hwstk hlw (hws w (by simp)) hballe
          have hbndm : ∃ b2 bs2,
              popBoundaries iw st.boundaries = b2 :: bs2 ∧ b2 ≤ iv := by
            have hnn : popBoundaries iw st.boundaries ≠ [] := by
              have h0 : (0 : Nat) ∈ st.boundaries :=
                hInv.bZero (by rw [hb]; simp)
              intro h
              have := mem_popBoundaries_of_le iw 0 st.boundaries h0 (Nat.zero_le iw)
              rw [h] at this
              cases this
            cases hpe : popBoundaries iw st.boundaries with
            | nil => exact absurd hpe hnn
            | cons b2 bs2 =>
              refine ⟨b2, bs2, rfl, ?_⟩
              rcases popBoundaries_suffix iw st.boundaries with ⟨k, hk⟩
              have : b2 ∈ st.boundaries := by
                have : b2 ∈ popBoundaries iw st.boundaries := by rw [hpe]; simp
                rw [hk] at this
                exact List.mem_of_mem_drop this
              exact hballe b2 this
          rcases ih { st with boundaries := popBoundaries iw st.boundaries }
            v iv hInvm hv hlkv hbndm (fun x hx => hws x (by simp [hx])) hvV hfc with
            ⟨st'', cs, heq, hInv'', hpres, hid, hstk, hbnd2, hcomps, hpw, hfcr⟩
          refine ⟨st'', cs, ?_, hInv'', hpres, hid, hstk, ?_, hcomps, hpw, hfcr⟩
          · simp only [dfsEdges]
            rw [if_neg (by simpa using hwn), if_pos (by simpa using hwid), hlw]
            simp only [Option.getD_some]
            exact heq
          · rcases hbnd2 with ⟨k2, b2, bs2, hd2, hc2, hle2⟩
            rcases popBoundaries_suffix iw st.boundaries with ⟨k, hk⟩
            exact ⟨k + k2, b2, bs2,
              by rw [hd2]; simp only; rw [hk, List.drop_drop, Nat.add_comm],
              hc2, hle2⟩

/-- `dfsVisit` satisfies its specification at every fuel level. -/
theorem dfsVisit_spec (edges : String → List String) (V : List String)
    (hcl : ∀ u ∈ V, ∀ w ∈ edges u, w ∈ V) :
    ∀ fuel, VisitSpec edges V fuel := by
  intro fuel
  induction fuel with
  | zero =>
    intro st v _ _ _ _ hfc
    exact absurd hfc (Nat.not_lt_zero _)
  | succ fuel ih =>
    have hesp := dfsEdges_spec edges V hcl fuel ih
    intro st v hInv hvnone hvV hreach hfc
    have hInv1 := inv_push hInv hvnone hvV hreach
    set iv := st.stack.length with hiv
    set st1 : SccSt :=
      { st with index := (v, iv) :: st.index, stack := st.stack ++ [v],
                boundaries := iv :: st.boundaries } with hst1
    have hfc1 : freshCount V st1 < freshCount V st := by
      have hcongr : V.filter (fun x => (lookupKV st1.index x).isNone) =
          V.filter (fun x => decide (x ≠ v) &&
            (lookupKV st.index x).isNone) := by
        apply List.filter_congr
        intro x _
        show (lookupKV ((v, iv) :: st.index) x).isNone = _
        rw [lookupKV_cons]
        by_cases hvx : v = x
        · simp [hvx]
        · have : x ≠ v := fun h => hvx h.symm
          simp [hvx, this]
      show (V.filter (fun x => (lookupKV st1.index x).isNone)).length < _
      rw [hcongr]
      exact filter_length_mark (fun x => (lookupKV st.index x).isNone) v V hvV
        (by show (lookupKV st.index v).isNone = true; rw [hvnone]; rfl)
    have hlk1v : lookupKV st1.index v = some iv := by
      show lookupKV ((v, iv) :: st.index) v = some iv
      rw [lookupKV_cons, if_pos rfl]
    rcases hesp (edges v) st1 v iv hInv1
      (List.mem_append.mpr (Or.inr (by simp)))
      hlk1v ⟨iv, st.boundaries, rfl, Nat.le_refl iv⟩
      (fun x hx => hx) hvV (by omega) with
      ⟨st2, cs, heq, hInv2, hpres2, hid2, ⟨ext2, hstk2⟩,
        ⟨k, b2, bs2, hdk, hb2, hble2⟩, hcomps2, hpw2, hfc2⟩
    have hstk2' : st2.stack = st.stack ++ (v :: ext2) := by
      rw [hstk2]
      show (st.stack ++ [v]) ++ ext2 = _
      rw [List.append_assoc]
      rfl
    have hpres1 : ∀ x, (lookupKV st.index x).isSome →
        lookupKV st1.index x = lookupKV st.index x := by
      intro x hx
      show lookupKV ((v, iv) :: st.index) x = _
      rw [lookupKV_cons, if_neg ?_]
      intro hvx
      rw [← hvx, hvnone] at hx
      cases hx
    have hid1 : st1.identified = st.identified := rfl
    have hprescomb : ∀ x, (lookupKV st.index x).isSome →
        lookupKV st2.index x = lookupKV st.index x := by
      intro x hx
      rw [hpres2 x (by rw [hpres1 x hx]; exact hx), hpres1 x hx]
    have hlk2v : lookupKV st2.index v = some iv := by
      rw [hpres2 v (by rw [hlk1v]; rfl), hlk1v]
    have hvstk2 : v ∈ st2.stack := by
      rw [hstk2']
      exact List.mem_append.mpr (Or.inr (by simp))
    have hcomps' : ∀ c ∈ cs, c ≠ [] ∧ c.Nodup ∧
        (∀ x ∈ c, x ∉ st.identified ∧ x ∉ st.stack) ∧
        (∀ x ∈ c, ∀ y ∈ c, Reach edges x y) := by
      intro c hc
      rcases hcomps2 c hc with ⟨hne, hnd, hnotin, hmut⟩
      refine ⟨hne, hnd, ?_, hmut⟩
      intro x hx
      rcases hnotin x hx with ⟨hnid, hnstk⟩
      exact ⟨fun h => hnid h, fun h => hnstk (List.mem_append.mpr (Or.inl h))⟩
    have hid2' : ∀ x, x ∈ st2.identified ↔
        x ∈ st.identified ∨ ∃ c ∈ cs, x ∈ c := hid2
    by_cases hbeq : b2 = iv
    · -- emission
      have hst2b : st2.boundaries = iv :: st.boundaries := by
        cases k with
        | zero => rw [hdk]; rfl
        | succ n =>
          exfalso
          have hmem : b2 ∈ st.boundaries := by
            have h1 : b2 ∈ st2.boundaries := by rw [hb2]; simp
            rw [hdk] at h1
            show b2 ∈ st.boundaries
            have : (st1.boundaries.drop (n+1)) = st.boundaries.drop n := rfl
            rw [this] at h1
            exact List.mem_of_mem_drop h1
          have := hInv.bLt b2 hmem
          omega
      have htake : st2.stack.take iv = st.stack := by
        rw [hstk2']
        exact List.take_left st.stack (v :: ext2)
      have hdrop : st2.stack.drop iv = v :: ext2 := by
        rw [hstk2']
        exact List.drop_left st.stack (v :: ext2)
      rcases emit_slice hInv2 hst2b with ⟨hsne, hsnd, hsmut⟩
      have hInv' := inv_emit hInv2 hst2b
      refine ⟨⟨st2.stack.drop iv ++ st2.identified, st2.stack.take iv,
          st2.index, st2.boundaries.tail⟩,
        cs ++ [st2.stack.drop iv], ?_, ?_, hprescomb, hlk2v, ?_, ?_, ?_, ?_, ?_, ?_⟩
      · simp only [dfsVisit, heq]
        rw [if_pos (by rw [hst2b]; simp)]
      · have : st2.boundaries.tail = st.boundaries := by rw [hst2b]; rfl
        rw [this]
        exact hInv'
      · intro x
        show x ∈ st2.stack.drop iv ++ st2.identified ↔ _
        rw [List.mem_append, hid2' x]
        constructor
        · rintro (h | h | h)
          · exact Or.inr ⟨st2.stack.drop iv, by simp, h⟩
          · exact Or.inl h
          · rcases h with ⟨c, hc, hxc⟩
            exact Or.inr ⟨c, by simp [hc], hxc⟩
        · rintro (h | ⟨c, hc, hxc⟩)
          · exact Or.inr (Or.inl h)
          · rcases List.mem_append.mp hc with h | h
            · exact Or.inr (Or.inr ⟨c, h, hxc⟩)
            · rcases List.mem_singleton.mp h with rfl
              exact Or.inl hxc
      · exact ⟨[], by rw [htake]; simp⟩
      · left
        refine ⟨by rw [hst2b]; rfl, by rw [htake], ?_⟩
        show v ∈ st2.stack.drop iv ++ st2.identified
        rw [hdrop]
        simp
      · intro c hc
        rcases List.mem_append.mp hc with h | h
        · exact hcomps' c h
        · rcases List.mem_singleton.mp h with rfl
          refine ⟨hsne, hsnd, ?_, hsmut⟩
          intro x hx
          have hxstk2 : x ∈ st2.stack := List.mem_of_mem_drop hx
          have hxnid2 : x ∉ st2.identified := hInv2.stackNotId x hxstk2
          constructor
          · intro h
            exact hxnid2 ((hid2' x).mpr (Or.inl h))
          · intro h
            rw [hdrop] at hx
            have hndstk := hInv2.nodup
            rw [hstk2'] at hndstk
            exact (List.nodup_append.mp hndstk).2.2 h hx
      · rw [List.pairwise_append]
        refine ⟨hpw2, by simp, ?_⟩
        intro c1 hc1 c2 hc2 x hx1
        rcases List.mem_singleton.mp hc2 with rfl
        intro hx2
        have hxid : x ∈ st2.identified := (hid2' x).mpr (Or.inr ⟨c1, hc1, hx1⟩)
        exact hInv2.stackNotId x (List.mem_of_mem_drop hx2) hxid
      · show freshCount V st2 < freshCount V st
        omega
    · -- no emission
      refine ⟨st2, cs, ?_, hInv2, hprescomb, hlk2v, hid2', ⟨v :: ext2, hstk2'⟩,
        ?_, hcomps', hpw2, by omega⟩
      · simp only [dfsVisit, heq]
        rw [if_neg ?_]
        rw [hb2]
        simp only [List.head?_cons, Option.some_inj]
        exact hbeq
      · right
        cases k with
        | zero =>
          exfalso
          rw [hdk] at hb2
          have : st1.boundaries = iv :: st.boundaries := rfl
          rw [List.drop_zero, this] at hb2
          cases hb2
          exact hbeq rfl
        | succ n =>
          refine ⟨n, ?_, by rw [hb2]; simp, hvstk2, ?_⟩
          · rw [hdk]
            rfl
          · exact hInv2.stackNotId v hvstk2

/-- The top-level loop of `strongly_connected_components`: from an
invariant state with empty stack and boundaries it succeeds, returns to an
empty stack and boundaries, identifies every listed vertex, and emits
nonempty, duplicate-free, strongly connected, pairwise disjoint components
of fresh vertices. -/
theorem sccTop_spec (edges : String → List String) (V : List String)
    (hcl : ∀ u ∈ V, ∀ w ∈ edges u, w ∈ V) (fuel : Nat) :
    ∀ vs st, SccInv edges V st → st.stack = [] → st.boundaries = [] →
    (∀ v ∈ vs, v ∈ V) → freshCount V st < fuel →
    ∃ st' cs, sccTop edges fuel st vs = some (st', cs) ∧
      SccInv edges V st' ∧ st'.stack = [] ∧ st'.boundaries = [] ∧
      (∀ x, x ∈ st'.identified ↔ x ∈ st.identified ∨ ∃ c ∈ cs, x ∈ c) ∧
      (∀ v ∈ vs, v ∈ st'.identified) ∧
      (∀ c ∈ cs, c ≠ [] ∧ c.Nodup ∧
        (∀ x ∈ c, x ∉ st.identified) ∧
        (∀ x ∈ c, ∀ y ∈ c, Reach edges x y)) ∧
      cs.Pairwise (fun c d => ∀ x ∈ c, x ∉ d) ∧
      freshCount V st' ≤ freshCount V st := by
  intro vs
  induction vs with
  | nil =>
    intro st hInv hstk hbnd _ _
    exact ⟨st, [], rfl, hInv, hstk, hbnd, by simp, by simp, by simp,
      List.Pairwise.nil, Nat.le_refl _⟩
  | cons v vs ih =>
    intro st hInv hstk hbnd hvs hfc
    by_cases hv : (lookupKV st.index v).isNone
    · have hvnone : lookupKV st.index v = none :=
        Option.isNone_iff_eq_none.mp hv
      rcases dfsVisit_spec edges V hcl fuel st v hInv hvnone
        (hvs v (by simp)) (by rw [hstk]; simp) hfc with
        ⟨st2, cs, heq, hInv2, hpres2, hlkv2, hid2, ⟨ext, hstk2⟩,
          hdich, hcomps2, hpw2, hfc2⟩
      have hemit : st2.boundaries = st.boundaries ∧ st2.stack = st.stack ∧
          v ∈ st2.identified := by
        rcases hdich with h | ⟨k, hk, hne, _, _⟩
        · exact h
        · exfalso
          apply hne
          rw [hk, hbnd]
          simp
      obtain ⟨hbnd2, hstk2', hvid2⟩ := hemit
      rcases ih st2 hInv2 (by rw [hstk2', hstk]) (by rw [hbnd2, hbnd])
        (fun u hu => hvs u (by simp [hu])) (by omega) with
        ⟨st3, cs3, heq3, hInv3, hstk3, hbnd3, hid3, hcover3, hcomps3,
          hpw3, hfc3⟩
      refine ⟨st3, cs ++ cs3, ?_, hInv3, hstk3, hbnd3, ?_, ?_, ?_, ?_,
        by omega⟩
      · show sccTop edges fuel st (v :: vs) = some (st3, cs ++ cs3)
        simp only [sccTop, hvnone, Option.isNone_none, if_true, heq, heq3]
      · intro x
        constructor
        · intro h
          rcases (hid3 x).mp h with h2 | ⟨c, hc, hxc⟩
          · rcases (hid2 x).mp h2 with h1 | ⟨c, hc, hxc⟩
            · exact Or.inl h1
            · exact Or.inr ⟨c, List.mem_append.mpr (Or.inl hc), hxc⟩
          · exact Or.inr ⟨c, List.mem_append.mpr (Or.inr hc), hxc⟩
        · rintro (h | ⟨c, hc, hxc⟩)
          · exact (hid3 x).mpr (Or.inl ((hid2 x).mpr (Or.inl h)))
          · rcases List.mem_append.mp hc with h | h
            · exact (hid3 x).mpr (Or.inl ((hid2 x).mpr (Or.inr ⟨c, h, hxc⟩)))
            · exact (hid3 x).mpr (Or.inr ⟨c, h, hxc⟩)
      · intro u hu
        rcases List.mem_cons.mp hu with rfl | hu
        · exact (hid3 u).mpr (Or.inl hvid2)
        · exact hcover3 u hu
      · intro c hc
        rcases List.mem_append.mp hc with h | h
        · rcases hcomps2 c h with ⟨hne, hnd, hnotin, hmut⟩
          exact ⟨hne, hnd, fun x hx => (hnotin x hx).1, hmut⟩
        · rcases hcomps3 c h with ⟨hne, hnd, hnotin, hmut⟩
          refine ⟨hne, hnd, ?_, hmut⟩
          intro x hx hxid
          exact hnotin x hx ((hid2 x).mpr (Or.inl hxid))
      · rw [List.pairwise_append]
        refine ⟨hpw2, hpw3, ?_⟩
        intro c1 hc1 c2 hc2 x hx1 hx2
        have hxid : x ∈ st2.identified := (hid2 x).mpr (Or.inr ⟨c1, hc1, hx1⟩)
        exact (hcomps3 c2 hc2).2.2.1 x hx2 hxid
    · have hvsome : (lookupKV st.index v).isSome := by
        cases hvl : lookupKV st.index v with
        | none => exact absurd (by rw [hvl]; rfl) hv
        | some n => rfl
      have hvid : v ∈ st.identified := by
        rcases hInv.domCover v hvsome with h | h
        · exact h
        · rw [hstk] at h
          cases h
      rcases ih st hInv hstk hbnd (fun u hu => hvs u (by simp [hu])) hfc with
        ⟨st3, cs3, heq3, hInv3, hstk3, hbnd3, hid3, hcover3, hcomps3,
          hpw3, hfc3⟩
      refine ⟨st3, cs3, ?_, hInv3, hstk3, hbnd3, hid3, ?_, hcomps3,
        hpw3, hfc3⟩
      · show sccTop edges fuel st (v :: vs) = some (st3, cs3)
        simp only [sccTop]
        rw [if_neg hv]
        exact heq3
      · intro u hu
        rcases List.mem_cons.mp hu with rfl | hu
        · exact (hid3 u).mpr (Or.inl hvid)
        · exact hcover3 u hu

/-- Assembled correctness of `strongly_connected_components` on an
edge-closed vertex list: it succeeds, every vertex is covered, components
contain only input vertices, are nonempty, duplicate-free and mutually
reachable, and are pairwise disjoint. -/
theorem scc_core (vertices : List String) (edges : String → List String)
    (hcl : ∀ u ∈ vertices, ∀ w ∈ edges u, w ∈ vertices) :
    ∃ cs, strongly_connected_components vertices edges = some cs ∧
      (∀ v ∈ vertices, ∃ c ∈ cs, v ∈ c) ∧
      (∀ c ∈ cs, ∀ x ∈ c, x ∈ vertices) ∧
      (∀ c ∈ cs, c ≠ [] ∧ c.Nodup ∧ (∀ x ∈ c, ∀ y ∈ c, Reach edges x y)) ∧
      cs.Pairwise (fun c d => ∀ x ∈ c, x ∉ d) := by
  have hInv0 : SccInv edges vertices ⟨[], [], [], []⟩ := by
    refine ⟨List.nodup_nil, ?_, ?_, ?_, ?_, List.Pairwise.nil, ?_, ?_, ?_,
      ?_, ?_, ?_⟩
    · intro i
      exact absurd i.isLt (by simp)
    · intro w hw
      cases hw
    · intro w hw
      cases hw
    · intro w hw
      cases hw
    · intro b hb
      cases hb
    · intro _
      rfl
    · intro h
      exact absurd rfl h
    · intro w hw
      cases hw
    · intro i
      exact absurd i.isLt (by simp)
    · intro i
      exact absurd i.isLt (by simp)
  have hfc0 : freshCount vertices ⟨[], [], [], []⟩ < vertices.length + 1 :=
    Nat.lt_succ_of_le (List.length_filter_le _ _)
  rcases sccTop_spec edges vertices hcl (vertices.length + 1) vertices
    ⟨[], [], [], []⟩ hInv0 rfl rfl (fun _ h => h) hfc0 with
    ⟨st', cs, heq, hInv', _, _, hid', hcover', hcomps', hpw', _⟩
  refine ⟨cs, ?_, ?_, ?_, ?_, hpw'⟩
  · show strongly_connected_components vertices edges = some cs
    simp only [strongly_connected_components, heq]
  · intro v hv
    have := (hid' v).mp (hcover' v hv)
    rcases this with h | h
    · cases h
    · exact h
  · intro c hc x hx
    have hxid : x ∈ st'.identified := (hid' x).mpr (Or.inr ⟨c, hc, hx⟩)
    exact hInv'.domV x (hInv'.idDom x hxid)
  · intro c hc
    rcases hcomps' c hc with ⟨hne, hnd, _, hmut⟩
    exact ⟨hne, hnd, hmut⟩

/-- In a pairwise-disjoint family, an element of one member is counted in
exactly one member. -/
theorem countP_mem_pairwise_disjoint (v : String) :
    ∀ (cs : List (List String)),
    cs.Pairwise (fun c d => ∀ x ∈ c, x ∉ d) →
    ∀ c ∈ cs, v ∈ c → cs.countP (fun d => decide (v ∈ d)) = 1 := by
  intro cs
  induction cs with
  | nil =>
    intro _ c hc
    cases hc
  | cons a cs ih =>
    intro hpw c hc hvc
    rcases List.pairwise_cons.mp hpw with ⟨ha, hpw2⟩
    rw [List.countP_cons]
    rcases List.mem_cons.mp hc with rfl | hc2
    · have hzero : cs.countP (fun d => decide (v ∈ d)) = 0 := by
        rw [List.countP_eq_zero]
        intro d hd
        simp only [decide_eq_true_eq]
        exact ha d hd v hvc
      rw [hzero]
      simp [hvc]
    · have hone := ih hpw2 c hc2 hvc
      have hva : v ∉ a := fun hva => ha c hc2 v hva hvc
      rw [hone]
      simp [hva]

/-- A nonempty duplicate-free list whose members all equal `v` is `[v]`. -/
theorem eq_singleton_of_all_eq {v : String} :
    ∀ (c : List String), c ≠ [] → c.Nodup → (∀ x ∈ c, x = v) → c = [v] := by
  intro c hne hnd hall
  cases c with
  | nil => exact absurd rfl hne
  | cons a tail =>
    have ha : a = v := hall a (by simp)
    cases tail with
    | nil => rw [ha]
    | cons b tail2 =>
      exfalso
      have hb : b = v := hall b (by simp)
      have : a ∉ b :: tail2 := (List.nodup_cons.mp hnd).1
      exact this (by rw [ha, hb]; simp)

/-- **C1.**  On an edge-closed vertex list, `strongly_connected_components`
succeeds and yields a partition of the vertices: every input vertex lies
in exactly one emitted component, no component is empty, and a vertex on
no cycle is emitted as the singleton `[v]`. -/
theorem scc_components_partition (vertices : List String)
    (edges : String → List String)
    (hcl : ∀ u ∈ vertices, ∀ w ∈ edges u, w ∈ vertices) :
    ∃ cs, strongly_connected_components vertices edges = some cs ∧
      (∀ v ∈ vertices, cs.countP (fun c => decide (v ∈ c)) = 1) ∧
      (∀ c ∈ cs, c ≠ []) ∧
      (∀ v ∈ vertices, ¬ OnCycle edges v → [v] ∈ cs) := by
  rcases scc_core vertices edges hcl with
    ⟨cs, heq, hcover, hsub, hcomps, hpw⟩
  refine ⟨cs, heq, ?_, fun c hc => (hcomps c hc).1, ?_⟩
  · intro v hv
    rcases hcover v hv with ⟨c, hc, hvc⟩
    exact countP_mem_pairwise_disjoint v cs hpw c hc hvc
  · intro v hv hnc
    rcases hcover v hv with ⟨c, hc, hvc⟩
    have hall : ∀ x ∈ c, x = v := by
      intro x hx
      by_contra hxv
      have hvx : Reach edges v x := (hcomps c hc).2.2 v hvc x hx
      have hxv2 : Reach edges x v := (hcomps c hc).2.2 x hx v hvc
      rcases Relation.ReflTransGen.cases_head hvx with h | ⟨z, hstep, hzx⟩
      · exact hxv h.symm
      · exact hnc ⟨z, hstep, Relation.ReflTransGen.trans hzx hxv2⟩
    have := eq_singleton_of_all_eq c ((hcomps c hc).1)
      ((hcomps c hc).2.1) hall
    rw [← this]
    exact hc

/-- Witness for the partition theorem on a concrete three-vertex graph. -/
theorem scc_components_partition_witness :
    (∀ u ∈ ["a", "b", "c"], ∀ w ∈ eSCC u, w ∈ ["a", "b", "c"]) ∧
    (∃ cs, strongly_connected_components ["a", "b", "c"] eSCC = some cs ∧
      (∀ v ∈ ["a", "b", "c"], cs.countP (fun c => decide (v ∈ c)) = 1) ∧
      (∀ c ∈ cs, c ≠ []) ∧
      (∀ v ∈ ["a", "b", "c"], ¬ OnCycle eSCC v → [v] ∈ cs)) :=
  ⟨by decide, scc_components_partition ["a", "b", "c"] eSCC (by decide)⟩

/-- Unfolding of one round of the `topsort` emission loop. -/
theorem topsortRounds_succ (fuel : Nat) (data : List (Comp × List Comp)) :
    topsortRounds (fuel + 1) data =
      if (tsReady data).isEmpty then []
      else tsReady data :: topsortRounds fuel (tsNext data) := rfl

/-- In a list with duplicate-free keys, two entries with the same key have
the same value. -/
theorem keys_nodup_val_eq {A : Comp} {ds es : List Comp} :
    ∀ (data : List (Comp × List Comp)), (data.map Prod.fst).Nodup →
    (A, ds) ∈ data → (A, es) ∈ data → ds = es := by
  intro data
  induction data with
  | nil =>
    intro _ h
    cases h
  | cons kv data ih =>
    intro hnd h1 h2
    rcases List.nodup_cons.mp
      (show (kv.1 :: data.map Prod.fst).Nodup from hnd) with ⟨hk, hnd2⟩
    rcases List.mem_cons.mp h1 with h1 | h1 <;>
      rcases List.mem_cons.mp h2 with h2 | h2
    · rw [← h1] at h2
      exact (Prod.mk.injEq _ _ _ _).mp h2.symm |>.2
    · exfalso
      apply hk
      rw [List.mem_map]
      exact ⟨(A, es), h2, by rw [← h1]⟩
    · exfalso
      apply hk
      rw [List.mem_map]
      exact ⟨(A, ds), h1, by rw [← h2]⟩
    · exact ih hnd2 h1 h2

/-- Every key emitted by the `topsort` loop is a key of its input. -/
theorem topsortRounds_keys_sub :
    ∀ fuel (data : List (Comp × List Comp)), ∀ r ∈ topsortRounds fuel data,
    ∀ k ∈ r, k ∈ data.map Prod.fst := by
  intro fuel
  induction fuel with
  | zero =>
    intro data r hr
    cases hr
  | succ fuel ih =>
    intro data r hr k hk
    rw [topsortRounds_succ] at hr
    by_cases hre : (tsReady data).isEmpty
    · rw [if_pos hre] at hr
      cases hr
    · rw [if_neg hre] at hr
      rcases List.mem_cons.mp hr with rfl | hr2
      · rcases List.mem_map.mp hk with ⟨kv, hkv, rfl⟩
        exact List.mem_map.mpr ⟨kv, List.mem_of_mem_filter hkv, rfl⟩
      · have := ih (tsNext data) r hr2 k hk
        rcases List.mem_map.mp this with ⟨kv2, hkv2, rfl⟩
        rcases List.mem_map.mp hkv2 with ⟨kv, hkv, rfl⟩
        exact List.mem_map.mpr ⟨kv, List.mem_of_mem_filter hkv, rfl⟩

/-- A dependency recorded in the input data forces its target to be
emitted in a strictly earlier round than its source. -/
theorem topsortRounds_order :
    ∀ fuel (data : List (Comp × List Comp)),
    (data.map Prod.fst).Nodup →
    ∀ A ds B, (A, ds) ∈ data → B ∈ ds → B ≠ A →
    ∀ i j ri rj, (topsortRounds fuel data).get? i = some ri →
      (topsortRounds fuel data).get? j = some rj →
      A ∈ ri → B ∈ rj → j < i := by
  intro fuel
  induction fuel with
  | zero =>
    intro data _ A ds B _ _ _ i j ri rj hgi _ _ _
    cases hgi
  | succ fuel ih =>
    intro data hnd A ds B hAds hBds hBA i j ri rj hgi hgj hAri hBrj
    rw [topsortRounds_succ] at hgi hgj
    by_cases hre : (tsReady data).isEmpty
    · rw [if_pos hre] at hgi
      cases hgi
    · rw [if_neg hre] at hgi hgj
      have hAnotready : A ∉ tsReady data := by
        intro hA
        rcases List.mem_map.mp hA with ⟨kv, hkv, hfst⟩
        have hkvdata := List.mem_of_mem_filter hkv
        have hkvempty : kv.2 = [] :=
          List.isEmpty_iff.mp ((List.mem_filter.mp hkv).2)
        have hkv2 : (A, kv.2) ∈ data := by
          rw [← hfst]
          exact hkvdata
        have : ds = kv.2 := keys_nodup_val_eq data hnd hAds hkv2
        rw [this, hkvempty] at hBds
        cases hBds
      cases i with
      | zero =>
        rw [List.get?_cons_zero] at hgi
        cases hgi
        exact absurd hAri hAnotready
      | succ i2 =>
        cases j with
        | zero => omega
        | succ j2 =>
          rw [List.get?_cons_succ] at hgi hgj
          have hBnotready : B ∉ tsReady data := by
            intro hB
            have hrjmem := List.get?_mem hgj
            have := topsortRounds_keys_sub fuel (tsNext data) rj hrjmem B hBrj
            rcases List.mem_map.mp this with ⟨kv2, hkv2, rfl⟩
            rcases List.mem_map.mp hkv2 with ⟨kv, hkv, rfl⟩
            have : decide (kv.1 ∉ tsReady data) = true :=
              (List.mem_filter.mp hkv).2
            exact (decide_eq_true_eq.mp this) hB
          have hndnext : ((tsNext data).map Prod.fst).Nodup := by
            have h1 : (tsNext data).map Prod.fst =
                (data.filter (fun kv => decide (kv.1 ∉ tsReady data))).map
                  Prod.fst := by
              show ((data.filter _).map _).map _ = _
              rw [List.map_map]
              rfl
            rw [h1]
            exact ((List.filter_sublist data).map Prod.fst).nodup hnd
          have hentry : (A, ds.filter (fun c => decide (c ∉ tsReady data))) ∈
              tsNext data := by
            apply List.mem_map.mpr
            refine ⟨(A, ds), ?_, rfl⟩
            apply List.mem_filter.mpr
            exact ⟨hAds, decide_eq_true hAnotready⟩
          have hBds2 : B ∈ ds.filter (fun c => decide (c ∉ tsReady data)) :=
            List.mem_filter.mpr ⟨hBds, decide_eq_true hBnotready⟩
          have := ih (tsNext data) hndnext A _ B hentry hBds2 hBA
            i2 j2 ri rj hgi hgj hAri hBrj
          omega

/-- Every position of a flattened list of blocks lies inside one block,
between the flattened lengths of the preceding blocks and of the blocks up
to and including it. -/
theorem flatten_pos {α : Type} :
    ∀ (ll : List (List α)) (i : Nat) (x : α),
    ll.flatten.get? i = some x →
    ∃ r lr, ll.get? r = some lr ∧ x ∈ lr ∧
      ((ll.take r).flatten).length ≤ i ∧
      i < ((ll.take (r + 1)).flatten).length := by
  intro ll
  induction ll with
  | nil =>
    intro i x h
    cases h
  | cons a ll ih =>
    intro i x h
    rw [List.flatten_cons] at h
    by_cases hi : i < a.length
    · rw [List.get?_append hi] at h
      refine ⟨0, a, List.get?_cons_zero, List.get?_mem h, by simp, ?_⟩
      show i < ((a :: ll).take 1).flatten.length
      simp [hi]
    · rw [List.get?_append_right (by omega)] at h
      rcases ih (i - a.length) x h with ⟨r, lr, hget, hx, hlo, hhi⟩
      refine ⟨r + 1, lr, by rw [List.get?_cons_succ]; exact hget, hx, ?_, ?_⟩
      · show ((a :: ll.take r).flatten).length ≤ i
        rw [List.flatten_cons, List.length_append]
        omega
      · show i < ((a :: ll.take (r + 1)).flatten).length
        rw [List.flatten_cons, List.length_append]
        omega

/-- The flattened length of a take is monotone in the number of blocks
taken. -/
theorem flatten_take_mono {α : Type} (ll : List (List α)) (r s : Nat)
    (hrs : r ≤ s) :
    ((ll.take r).flatten).length ≤ ((ll.take s).flatten).length := by
  have h1 : (ll.take s).take r = ll.take r := by
    rw [List.take_take]
    congr 1
    omega
  have h2 : ll.take s = (ll.take s).take r ++ (ll.take s).drop r :=
    (List.take_append_drop r (ll.take s)).symm
  calc ((ll.take r).flatten).length
      = (((ll.take s).take r).flatten).length := by rw [h1]
    _ ≤ (((ll.take s).take r).flatten).length +
        (((ll.take s).drop r).flatten).length := Nat.le_add_right _ _
    _ = ((ll.take s).flatten).length := by
        conv_rhs => rw [h2]
        rw [List.flatten_append, List.length_append]

/-- In a pairwise-disjoint family, `find?` on membership returns the
member's unique block. -/
theorem find_block_eq {x : String} :
    ∀ (cs : List (List String)), cs.Pairwise (fun c d => ∀ a ∈ c, a ∉ d) →
    ∀ c ∈ cs, x ∈ c → ((cs.find? (fun d => decide (x ∈ d))).getD []) = c := by
  intro cs
  induction cs with
  | nil =>
    intro _ c hc
    cases hc
  | cons a cs ih =>
    intro hpw c hc hxc
    rcases List.pairwise_cons.mp hpw with ⟨ha, hpw2⟩
    by_cases hxa : x ∈ a
    · rw [@List.find?_cons_of_pos (List String) (fun d => decide (x ∈ d)) a cs
        (decide_eq_true hxa)]
      rcases List.mem_cons.mp hc with rfl | hc2
      · rfl
      · exact absurd hxc (ha c hc2 x hxa)
    · rw [@List.find?_cons_of_neg (List String) (fun d => decide (x ∈ d)) a cs
        (by simpa using hxa)]
      rcases List.mem_cons.mp hc with rfl | hc2
      · exact absurd hxc hxa
      · exact ih hpw2 c hc2 hxc

/-- Everything `deps_filtered` returns lies in the vertex list. -/
theorem deps_filtered_sub (g : BGraph) (vertices : List String) (id : String)
    (pri_max : Nat) : ∀ w ∈ deps_filtered g vertices id pri_max,
    w ∈ vertices := by
  intro w hw
  unfold deps_filtered at hw
  by_cases hu : id ∉ vertices
  · rw [if_pos hu] at hw
    cases hw
  · rw [if_neg hu] at hw
    have h2 := (List.mem_filter.mp hw).2
    have h3 := ((Bool.and_eq_true _ _).mp h2).1
    exact decide_eq_true_eq.mp h3

/-- `sorted_components` in terms of `sccData` and `topsort`, once the SCC
computation is known to succeed. -/
theorem sorted_components_eq (g : BGraph) (vertices : List String)
    (pri_max : Nat) (sccs : List Comp)
    (h : strongly_connected_components vertices
      (fun id => deps_filtered g vertices id pri_max) = some sccs) :
    sorted_components g vertices pri_max =
      some ((topsort (sccData g vertices pri_max sccs)).flatMap (fun ready =>
        ready.mergeSort (fun c1 c2 => minOrder g c2 ≤ minOrder g c1))) := by
  simp only [sorted_components, h]
  rfl

/-- When every recorded dependency is a key, normalization only strips
self-dependencies (no orphan entries are added). -/
theorem normalize_eq_of_closed (data : List (Comp × List Comp))
    (h : ∀ kv ∈ data, ∀ c ∈ kv.2, c ∈ data.map Prod.fst) :
    topsortNormalize data =
      data.map (fun kv => (kv.1, kv.2.filter (fun c => c ≠ kv.1))) := by
  simp only [topsortNormalize]
  have hfil : (((data.map (fun kv => (kv.1, kv.2.filter (fun c => c ≠ kv.1)))).flatMap
      (fun kv => kv.2)).filter
      (fun c => decide (∀ kv ∈ data.map (fun kv => (kv.1, kv.2.filter (fun c => c ≠ kv.1))),
        kv.1 ≠ c))) = [] := by
    rw [List.filter_eq_nil_iff]
    intro c hc hdec
    have hall := decide_eq_true_eq.mp hdec
    rcases List.mem_flatMap.mp hc with ⟨kv1, hkv1, hc2⟩
    rcases List.mem_map.mp hkv1 with ⟨kv, hkv, rfl⟩
    have hcds : c ∈ kv.2 := List.mem_of_mem_filter hc2
    have hckey : c ∈ data.map Prod.fst := h kv hkv c hcds
    rcases List.mem_map.mp hckey with ⟨kv0, hkv0, hfst⟩
    exact hall (kv0.1, kv0.2.filter (fun c => c ≠ kv0.1))
      (List.mem_map.mpr ⟨kv0, hkv0, rfl⟩) hfst
  rw [hfil]
  simp

/-- The keys of the condensation data are exactly the SCC list. -/
theorem sccData_keys (g : BGraph) (vertices : List String) (pri_max : Nat)
    (sccs : List Comp) :
    (sccData g vertices pri_max sccs).map Prod.fst = sccs := by
  unfold sccData
  rw [List.map_map]
  exact List.map_id sccs

/-- **C2.**  For every graph, vertex list and priority cap,
`sorted_components` succeeds and returns the SCCs in topological order
from leaves to roots: when a module of the component at position `i` has a
dependency, inside the vertex list and below the cap, on a module of a
different component at position `j`, then `j < i`. -/
theorem sorted_components_topological (g : BGraph) (vertices : List String)
    (pri_max : Nat) :
    ∃ res, sorted_components g vertices pri_max = some res ∧
      ∀ (i j : Fin res.length) (u w : String),
        u ∈ res.get i → w ∈ res.get j →
        w ∈ deps_filtered g vertices u pri_max →
        res.get i ≠ res.get j → j.val < i.val := by
  rcases scc_core vertices (fun id => deps_filtered g vertices id pri_max)
      (fun u _ w hw => deps_filtered_sub g vertices u pri_max w hw) with
    ⟨sccs, hscc, hcover, hsub, hcomps, hpw⟩
  have hsccnd : sccs.Nodup := by
    refine List.Pairwise.imp_of_mem ?_ hpw
    intro c d hc hd hcd hEq
    rcases List.exists_mem_of_ne_nil c (hcomps c hc).1 with ⟨x, hx⟩
    exact hcd x hx (hEq ▸ hx)
  have heqres := sorted_components_eq g vertices pri_max sccs hscc
  have hkeys : (sccData g vertices pri_max sccs).map Prod.fst = sccs :=
    sccData_keys g vertices pri_max sccs
  have hsmap : ∀ B ∈ sccs, ∀ w ∈ B, sccsMapFn sccs w = B := by
    intro B hB w hwB
    exact find_block_eq sccs hpw B hB hwB
  have hclosed : ∀ kv ∈ sccData g vertices pri_max sccs, ∀ c ∈ kv.2,
      c ∈ (sccData g vertices pri_max sccs).map Prod.fst := by
    rw [hkeys]
    intro kv hkv c hc
    rcases List.mem_map.mp hkv with ⟨scc, hsccm, rfl⟩
    have hc2 := List.mem_dedup.mp hc
    rcases List.mem_map.mp hc2 with ⟨w, hwmem, rfl⟩
    rcases List.mem_flatMap.mp hwmem with ⟨u, hu, hw⟩
    have hwv : w ∈ vertices := deps_filtered_sub g vertices u pri_max w hw
    rcases hcover w hwv with ⟨B, hB, hwB⟩
    rw [hsmap B hB w hwB]
    exact hB
  have hnormeq := normalize_eq_of_closed (sccData g vertices pri_max sccs)
    hclosed
  set D := sccData g vertices pri_max sccs with hDdef
  set D1 := D.map (fun kv => (kv.1, kv.2.filter (fun c => c ≠ kv.1)))
    with hD1def
  have hkeys1 : D1.map Prod.fst = sccs := by
    rw [hD1def, List.map_map]
    exact hkeys
  have hkeysnd : (D1.map Prod.fst).Nodup := by
    rw [hkeys1]
    exact hsccnd
  have htopsort : topsort D = topsortRounds (D1.length + 1) D1 := by
    simp only [topsort, hnormeq]
  refine ⟨_, heqres, ?_⟩
  set res := (topsort D).flatMap (fun ready =>
    ready.mergeSort (fun c1 c2 => minOrder g c2 ≤ minOrder g c1)) with hresdef
  intro i j u w hui hwj hdep hne
  have hllen : res = ((topsort D).map (fun ready =>
      ready.mergeSort (fun c1 c2 => minOrder g c2 ≤ minOrder g c1))).flatten := by
    rw [hresdef, List.flatMap_def]
  obtain ⟨A, hAeq⟩ : ∃ A, A = res.get i := ⟨_, rfl⟩
  obtain ⟨B, hBeq⟩ : ∃ B, B = res.get j := ⟨_, rfl⟩
  rw [← hAeq] at hui hne
  rw [← hBeq] at hwj hne
  have hgi : res.get? i.val = some A := by
    rw [hAeq]
    exact List.get?_eq_get i.isLt
  have hgj : res.get? j.val = some B := by
    rw [hBeq]
    exact List.get?_eq_get j.isLt
  obtain ⟨iv, hiv⟩ : ∃ n, (i : Nat) = n := ⟨_, rfl⟩
  obtain ⟨jv, hjv⟩ : ∃ n, (j : Nat) = n := ⟨_, rfl⟩
  rw [hiv] at hgi
  rw [hjv] at hgj
  rw [hllen] at hgi hgj
  rcases flatten_pos _ iv A hgi with ⟨ri, lri, hgri, hAlri, hloi, hhii⟩
  rcases flatten_pos _ jv B hgj with ⟨rj, lrj, hgrj, hBlrj, hloj, hhij⟩
  rw [List.get?_map] at hgri hgrj
  cases hri2 : (topsort D).get? ri with
  | none =>
    rw [hri2] at hgri
    cases hgri
  | some rdi =>
    cases hrj2 : (topsort D).get? rj with
    | none =>
      rw [hrj2] at hgrj
      cases hgrj
    | some rdj =>
      rw [hri2] at hgri
      rw [hrj2] at hgrj
      have hlri : rdi.mergeSort (fun c1 c2 =>
          minOrder g c2 ≤ minOrder g c1) = lri := Option.some.inj hgri
      have hlrj : rdj.mergeSort (fun c1 c2 =>
          minOrder g c2 ≤ minOrder g c1) = lrj := Option.some.inj hgrj
      have hArdi : A ∈ rdi :=
        (List.mergeSort_perm rdi _).mem_iff.mp (by rw [hlri]; exact hAlri)
      have hBrdj : B ∈ rdj :=
        (List.mergeSort_perm rdj _).mem_iff.mp (by rw [hlrj]; exact hBlrj)
      rw [htopsort] at hri2 hrj2
      have hAsccs : A ∈ sccs := by
        have := topsortRounds_keys_sub (D1.length + 1) D1 rdi
          (List.get?_mem hri2) A hArdi
        rw [hkeys1] at this
        exact this
      have hBsccs : B ∈ sccs := by
        have := topsortRounds_keys_sub (D1.length + 1) D1 rdj
          (List.get?_mem hrj2) B hBrdj
        rw [hkeys1] at this
        exact this
      have hAentry : (A, ((A.flatMap
          (fun id => deps_filtered g vertices id pri_max)).map
          (sccsMapFn sccs)).dedup) ∈ D := by
        rw [hDdef]
        unfold sccData
        exact List.mem_map.mpr ⟨A, hAsccs, rfl⟩
      have hBds : B ∈ ((A.flatMap
          (fun id => deps_filtered g vertices id pri_max)).map
          (sccsMapFn sccs)).dedup := by
        apply List.mem_dedup.mpr
        apply List.mem_map.mpr
        exact ⟨w, List.mem_flatMap.mpr ⟨u, hui, hdep⟩, hsmap B hBsccs w hwj⟩
      have hBA : B ≠ A := fun h => hne h.symm
      have hAentry1 : (A, (((A.flatMap
          (fun id => deps_filtered g vertices id pri_max)).map
          (sccsMapFn sccs)).dedup).filter (fun c => c ≠ A)) ∈ D1 := by
        rw [hD1def]
        exact List.mem_map.mpr ⟨_, hAentry, rfl⟩
      have hBds1 : B ∈ (((A.flatMap
          (fun id => deps_filtered g vertices id pri_max)).map
          (sccsMapFn sccs)).dedup).filter (fun c => c ≠ A) :=
        List.mem_filter.mpr ⟨hBds, decide_eq_true hBA⟩
      have horder := topsortRounds_order (D1.length + 1) D1 hkeysnd A _ B
        hAentry1 hBds1 hBA ri rj rdi rdj hri2 hrj2 hArdi hBrdj
      have hmono := flatten_take_mono ((topsort D).map (fun ready =>
        ready.mergeSort (fun c1 c2 => minOrder g c2 ≤ minOrder g c1)))
        (rj + 1) ri (by omega)
      omega

/-- Witness for the topological-order theorem on a concrete two-module
graph. -/
theorem sorted_components_topological_witness :
    ∃ res, sorted_components gQd ["a", "d"] PRI_ALL = some res ∧
      ∀ (i j : Fin res.length) (u w : String),
        u ∈ res.get i → w ∈ res.get j →
        w ∈ deps_filtered gQd ["a", "d"] u PRI_ALL →
        res.get i ≠ res.get j → j.val < i.val :=
  sorted_components_topological gQd ["a", "d"] PRI_ALL
